import Mathlib

/-!
Verification of the RIPEMD-160 halo2 circuit repository against its
natural-language specification.  The Rust sources are shallowly embedded:
machine integers become `Nat` with explicit `% 2^32` where wraparound
matters, bit arrays become their numeric values, witness-generation
routines become pure functions on those values, and selector-gated
polynomial gates become decidable propositions between the cell values
(over the huge prime field of the proving system, equalities between the
small cell values used here coincide with the corresponding `Nat`
equalities).
-/

namespace Ripemd

/-! ## Bit utilities.

The crate declares `mod util` (`table16/util.rs`) but that file is not
part of the sources provided; the functions below are modelled from the
specification, section 4.1, keeping the fixed bit-widths of the source's
`[bool; N]` arrays as an explicit width parameter. -/

/-- Modelled from the spec: `spread_bits` from the missing `table16/util.rs`;
re-encodes the low `w` bits of `x` by inserting a zero bit between every
bit ("doubling" the bit width). -/
def spread_bits : Nat → Nat → Nat
  | 0, _ => 0
  | w + 1, x => x % 2 + 4 * spread_bits w (x / 2)

/-- Modelled from the spec: `even_bits` from the missing `table16/util.rs`;
collects the `w` even-indexed bits of a `2*w`-bit value. -/
def even_bits : Nat → Nat → Nat
  | 0, _ => 0
  | w + 1, x => x % 2 + 2 * even_bits w (x / 4)

/-- Modelled from the spec: `odd_bits` from the missing `table16/util.rs`;
collects the `w` odd-indexed bits of a `2*w`-bit value. -/
def odd_bits (w x : Nat) : Nat := even_bits w (x / 2)

/-- Modelled from the spec: `MASK_EVEN_32` from the missing
`table16/util.rs`; the 32-bit pattern with every even bit set, i.e. the
spread form of the all-ones 16-bit word. -/
def MASK_EVEN_32 : Nat := 0x55555555

/-- Modelled from the spec: `negate_spread` from the missing
`table16/util.rs`; complements a 32-bit spread value directly in spread
form by flipping each even-indexed bit. -/
def negate_spread (x : Nat) : Nat := x ^^^ MASK_EVEN_32

/-- Modelled from the spec: `sum_with_carry` from the missing
`table16/util.rs`; sums a list of `(lo, hi)` 16-bit half pairs as an
unbounded integer and returns the 32-bit truncation together with the
overflow count. -/
def sum_with_carry (l : List (Nat × Nat)) : Nat × Nat :=
  let total := l.foldl (fun acc p => acc + (p.1 + 2 ^ 16 * p.2)) 0
  (total % 2 ^ 32, total / 2 ^ 32)

/-- Low 16-bit half of a word, as stored in a dense cell. -/
def lo16 (x : Nat) : Nat := x % 2 ^ 16

/-- High 16-bit half of a word (`(word >> 16) as u16`). -/
def hi16 (x : Nat) : Nat := x / 2 ^ 16 % 2 ^ 16

/-! ## Constants.

The crate declares `mod constants` (`constants.rs`) but that file is not
part of the sources provided; the tables below are modelled from the
specification (sections 4.5 and 6), which mandates the standard
RIPEMD-160 round tables: message-word selection permutations, rotation
amounts, round constants and initial values. -/

/-- Modelled from the spec: `MSG_SEL_IDX_LEFT` from the missing
`constants.rs`, the standard RIPEMD-160 left-lane message word selection. -/
def MSG_SEL_IDX_LEFT : List Nat :=
  [0, 1, 2, 3, 4, 5, 6, 7, 8, 9, 10, 11, 12, 13, 14, 15,
   7, 4, 13, 1, 10, 6, 15, 3, 12, 0, 9, 5, 2, 14, 11, 8,
   3, 10, 14, 4, 9, 15, 8, 1, 2, 7, 0, 6, 13, 11, 5, 12,
   1, 9, 11, 10, 0, 8, 12, 4, 13, 3, 7, 15, 14, 5, 6, 2,
   4, 0, 5, 9, 7, 12, 2, 10, 14, 1, 3, 8, 11, 6, 15, 13]

/-- Modelled from the spec: `MSG_SEL_IDX_RIGHT` from the missing
`constants.rs`, the standard RIPEMD-160 right-lane message word selection. -/
def MSG_SEL_IDX_RIGHT : List Nat :=
  [5, 14, 7, 0, 9, 2, 11, 4, 13, 6, 15, 8, 1, 10, 3, 12,
   6, 11, 3, 7, 0, 13, 5, 10, 14, 15, 8, 12, 4, 9, 1, 2,
   15, 5, 1, 3, 7, 14, 6, 9, 11, 8, 12, 2, 10, 0, 4, 13,
   8, 6, 4, 1, 3, 11, 15, 0, 5, 12, 2, 13, 9, 7, 10, 14,
   12, 15, 10, 4, 1, 5, 8, 7, 6, 2, 13, 14, 0, 3, 9, 11]

/-- Modelled from the spec: `ROL_AMOUNT_LEFT` from the missing
`constants.rs`, the standard RIPEMD-160 left-lane rotation amounts. -/
def ROL_AMOUNT_LEFT : List Nat :=
  [11, 14, 15, 12, 5, 8, 7, 9, 11, 13, 14, 15, 6, 7, 9, 8,
   7, 6, 8, 13, 11, 9, 7, 15, 7, 12, 15, 9, 11, 7, 13, 12,
   11, 13, 6, 7, 14, 9, 13, 15, 14, 8, 13, 6, 5, 12, 7, 5,
   11, 12, 14, 15, 14, 15, 9, 8, 9, 14, 5, 6, 8, 6, 5, 12,
   9, 15, 5, 11, 6, 8, 13, 12, 5, 12, 13, 14, 11, 8, 5, 6]

/-- Modelled from the spec: `ROL_AMOUNT_RIGHT` from the missing
`constants.rs`, the standard RIPEMD-160 right-lane rotation amounts. -/
def ROL_AMOUNT_RIGHT : List Nat :=
  [8, 9, 9, 11, 13, 15, 15, 5, 7, 7, 8, 11, 14, 14, 12, 6,
   9, 13, 15, 7, 12, 8, 9, 11, 7, 7, 12, 7, 6, 15, 13, 11,
   9, 7, 15, 11, 8, 6, 6, 14, 12, 13, 5, 14, 13, 13, 7, 5,
   15, 5, 8, 11, 14, 14, 6, 14, 6, 9, 12, 9, 12, 5, 15, 8,
   8, 5, 12, 9, 12, 5, 14, 6, 8, 13, 6, 5, 15, 13, 11, 11]

/-- Modelled from the spec: `ROUND_CONSTANTS_LEFT` from the missing
`constants.rs`, the standard RIPEMD-160 left-lane phase constants. -/
def ROUND_CONSTANTS_LEFT : List Nat :=
  [0x00000000, 0x5A827999, 0x6ED9EBA1, 0x8F1BBCDC, 0xA953FD4E]

/-- Modelled from the spec: `ROUND_CONSTANTS_RIGHT` from the missing
`constants.rs`, the standard RIPEMD-160 right-lane phase constants. -/
def ROUND_CONSTANTS_RIGHT : List Nat :=
  [0x50A28BE6, 0x5C4DD124, 0x6D703EF3, 0x7A6D76E9, 0x00000000]

/-- Modelled from the spec: `INITIAL_VALUES` from the missing
`constants.rs`, the RIPEMD-160 initial chaining values (spec section 6). -/
def INITIAL_VALUES : List Nat :=
  [0x67452301, 0xEFCDAB89, 0x98BADCFE, 0x10325476, 0xC3D2E1F0]

/-! ## Reference implementation (`src/native.rs`). -/

/-- The five 32-bit chaining variables (`native.rs`, `struct State`). -/
structure State where
  a : Nat
  b : Nat
  c : Nat
  d : Nat
  e : Nat
deriving DecidableEq

/-- `native.rs` `f1`: `x ^ y ^ z`. -/
def f1 (x y z : Nat) : Nat := x ^^^ y ^^^ z

/-- `native.rs` `f2`: `(x & y) | (!x & z)` with 32-bit NOT. -/
def f2 (x y z : Nat) : Nat := (x &&& y) ||| ((x ^^^ 0xFFFFFFFF) &&& z)

/-- `native.rs` `f3`: `(x | !y) ^ z` with 32-bit NOT. -/
def f3 (x y z : Nat) : Nat := (x ||| (y ^^^ 0xFFFFFFFF)) ^^^ z

/-- `native.rs` `f4`: `(x & z) | (y & !z)` with 32-bit NOT. -/
def f4 (x y z : Nat) : Nat := (x &&& z) ||| (y &&& (z ^^^ 0xFFFFFFFF))

/-- `native.rs` `f5`: `x ^ (y | !z)` with 32-bit NOT. -/
def f5 (x y z : Nat) : Nat := x ^^^ (y ||| (z ^^^ 0xFFFFFFFF))

/-- `native.rs` `rol`: `(word << amount) | (word >> (32 - amount))` on
`u32`; the left shift truncates modulo `2^32`. -/
def rol (word amount : Nat) : Nat :=
  ((word <<< amount) % 2 ^ 32) ||| (word >>> (32 - amount))

/-- `native.rs` `rol` with its run-time guards made explicit: the
`assert!(amount < 16)` aborts for `amount >= 16`, and a `u32` shift by an
amount `>= 32` (which happens in `word >> (32 - amount)` when
`amount = 0`) is an arithmetic-overflow error. -/
def rol_checked (word amount : Nat) : Option Nat :=
  if 16 ≤ amount then none
  else if 32 ≤ 32 - amount then none
  else some (rol word amount)

/-- Round function table `ROUND_FUNC_LEFT = [f1, f2, f3, f4, f5]`,
indexed by the phase `round_idx / 16`. -/
def round_func_left (p : Nat) : Nat → Nat → Nat → Nat :=
  match p with
  | 0 => f1
  | 1 => f2
  | 2 => f3
  | 3 => f4
  | _ => f5

/-- Round function table `ROUND_FUNC_RIGHT = [f5, f4, f3, f2, f1]`,
indexed by the phase `round_idx / 16`. -/
def round_func_right (p : Nat) : Nat → Nat → Nat → Nat :=
  match p with
  | 0 => f5
  | 1 => f4
  | 2 => f3
  | 3 => f2
  | _ => f1

/-- `native.rs` `left_step`: one left-lane compression round. -/
def left_step (round_idx : Nat) (s : State) (msg : List Nat) : State :=
  let f := round_func_left (round_idx / 16)
  let m := msg.getD (MSG_SEL_IDX_LEFT.getD round_idx 0) 0
  let k := ROUND_CONSTANTS_LEFT.getD (round_idx / 16) 0
  let shift := ROL_AMOUNT_LEFT.getD round_idx 0
  let t := (rol ((((s.a + f s.b s.c s.d) % 2 ^ 32 + m) % 2 ^ 32 + k) % 2 ^ 32)
      shift + s.e) % 2 ^ 32
  ⟨s.e, t, s.b, rol s.c 10, s.d⟩

/-- `native.rs` `right_step`: one right-lane compression round. -/
def right_step (round_idx : Nat) (s : State) (msg : List Nat) : State :=
  let f := round_func_right (round_idx / 16)
  let m := msg.getD (MSG_SEL_IDX_RIGHT.getD round_idx 0) 0
  let k := ROUND_CONSTANTS_RIGHT.getD (round_idx / 16) 0
  let shift := ROL_AMOUNT_RIGHT.getD round_idx 0
  let t := (rol ((((s.a + f s.b s.c s.d) % 2 ^ 32 + m) % 2 ^ 32 + k) % 2 ^ 32)
      shift + s.e) % 2 ^ 32
  ⟨s.e, t, s.b, rol s.c 10, s.d⟩

/-- `native.rs` `combine_left_right_states`, word-wise wrapping addition
of the initial state and the two lane results. -/
def combine_left_right_states (prev l r : State) : State :=
  ⟨((prev.b + l.c) % 2 ^ 32 + r.d) % 2 ^ 32,
   ((prev.c + l.d) % 2 ^ 32 + r.e) % 2 ^ 32,
   ((prev.d + l.e) % 2 ^ 32 + r.a) % 2 ^ 32,
   ((prev.e + l.a) % 2 ^ 32 + r.b) % 2 ^ 32,
   ((prev.a + l.b) % 2 ^ 32 + r.c) % 2 ^ 32⟩

/-- `native.rs` `get_compress_state`: run the 80 rounds of both lanes
from a common starting state, then combine. -/
def get_compress_state (s : State) (msg : List Nat) : State :=
  let lanes := (List.range 80).foldl
    (fun (p : State × State) j => (left_step j p.1 msg, right_step j p.2 msg)) (s, s)
  combine_left_right_states s lanes.1 lanes.2

/-- Little-endian bytes of a `u64` (`u64::to_le_bytes`). -/
def u64_le_bytes (n : Nat) : List Nat :=
  [n % 2 ^ 8, n / 2 ^ 8 % 2 ^ 8, n / 2 ^ 16 % 2 ^ 8, n / 2 ^ 24 % 2 ^ 8,
   n / 2 ^ 32 % 2 ^ 8, n / 2 ^ 40 % 2 ^ 8, n / 2 ^ 48 % 2 ^ 8, n / 2 ^ 56 % 2 ^ 8]

/-- Little-endian bytes of a `u32` (`u32::to_le_bytes`). -/
def u32_le_bytes (n : Nat) : List Nat :=
  [n % 2 ^ 8, n / 2 ^ 8 % 2 ^ 8, n / 2 ^ 16 % 2 ^ 8, n / 2 ^ 24 % 2 ^ 8]

/-- Split a byte list into successive 64-byte chunks (fuel-indexed to
keep the recursion structural). -/
def chunks_aux : Nat → List Nat → List (List Nat)
  | 0, _ => []
  | fuel + 1, l => if l.isEmpty then [] else l.take 64 :: chunks_aux fuel (l.drop 64)

/-- All 64-byte chunks of a byte list. -/
def chunks64 (l : List Nat) : List (List Nat) := chunks_aux l.length l

/-- Number of zero bytes appended by the padding, as computed by
`pad_message_bytes` from the message length. -/
def pad_zero_count (len : Nat) : Nat :=
  let gap := 64 - (len + 1) % 64
  if gap < 8 then gap + 56 else gap - 8

/-- `native.rs` `pad_message_bytes`: append `0x80`, zero bytes, and the
8-byte little-endian bit length, then cut into 64-byte blocks. -/
def pad_message_bytes (msg : List Nat) : List (List Nat) :=
  let padded := msg ++ 0x80 :: List.replicate (pad_zero_count msg.length) 0
      ++ u64_le_bytes ((msg.length <<< 3) % 2 ^ 64)
  chunks64 padded

/-- `From<[u8; 64]> for MessageBlock`: read 16 little-endian `u32` words. -/
def block_words (block : List Nat) : List Nat :=
  (List.range 16).map fun i =>
    block.getD (4 * i) 0 + 2 ^ 8 * block.getD (4 * i + 1) 0
      + 2 ^ 16 * block.getD (4 * i + 2) 0 + 2 ^ 24 * block.getD (4 * i + 3) 0

/-- State constructed from a 5-word list (`From<[u32; 5]> for State`). -/
def state_of_list (l : List Nat) : State :=
  ⟨l.getD 0 0, l.getD 1 0, l.getD 2 0, l.getD 3 0, l.getD 4 0⟩

/-- `From<State> for [u8; 20]`: concatenated little-endian bytes. -/
def state_to_bytes (s : State) : List Nat :=
  u32_le_bytes s.a ++ u32_le_bytes s.b ++ u32_le_bytes s.c
    ++ u32_le_bytes s.d ++ u32_le_bytes s.e

/-- `native.rs` `hash`: pad, compress every block starting from the IV,
and serialise the final state. -/
def hash (msg : List Nat) : List Nat :=
  let blocks := (pad_message_bytes msg).map block_words
  let final := blocks.foldl (fun st b => get_compress_state st b)
    (state_of_list INITIAL_VALUES)
  state_to_bytes final

/-! ## Spread table (`src/table16/spread_table.rs`). -/

/-- `spread_table.rs` `get_tag`: bit-length bracket of a 16-bit value. -/
def get_tag (x : Nat) : Nat :=
  if x < 2 ^ 8 then 0
  else if x < 2 ^ 9 then 1
  else if x < 2 ^ 10 then 2
  else if x < 2 ^ 11 then 3
  else if x < 2 ^ 12 then 4
  else if x < 2 ^ 13 then 5
  else if x < 2 ^ 14 then 6
  else if x < 2 ^ 15 then 7
  else 8

/-- The even-row spread recomputation loop inside
`SpreadTableConfig::generate`: set bit `2*b` of the result for every set
bit `b` of `i`. -/
def recompute_spread (i : Nat) : Nat :=
  (List.range 16).foldl
    (fun acc b => if (i >>> b) &&& 1 ≠ 0 then acc + (1 <<< (2 * b)) else acc) 0

/-- One update of the `(tag, dense, spread)` accumulator in
`SpreadTableConfig::generate`, at loop index `i`. -/
def generate_step (st : Nat × Nat × Nat) (i : Nat) : Nat × Nat × Nat :=
  ((if i = 2 ^ 8 ∨ i = 2 ^ 9 ∨ i = 2 ^ 10 ∨ i = 2 ^ 11 ∨ i = 2 ^ 12 ∨ i = 2 ^ 13
      ∨ i = 2 ^ 14 ∨ i = 2 ^ 15 then st.1 + 1 else st.1),
   st.2.1 + 1,
   (if i % 2 = 0 then recompute_spread i else st.2.2 + 1))

/-- The scan of `SpreadTableConfig::generate`: each iteration emits the
accumulator computed by the previous one, then updates it. -/
def generate_aux : Nat → Nat → Nat × Nat × Nat → List (Nat × Nat × Nat)
  | 0, _, _ => []
  | k + 1, i, st => st :: generate_aux k (i + 1) (generate_step st i)

/-- `SpreadTableConfig::generate`: the `2^16` `(tag, dense, spread)` rows. -/
def generate : List (Nat × Nat × Nat) := generate_aux (2 ^ 16) 1 (0, 0, 0)

/-! ## Circuit witness values (`src/table16/compression/compression_util.rs`).

Each `assign_*` routine is embedded as the function from the 32-bit
operand values to the values it writes into the output cells. -/

/-- The `u64` value of a `RoundWordSpread`: spread low half plus
`2^32` times the spread high half. -/
def spread_halves_val (x : Nat) : Nat :=
  spread_bits 16 (lo16 x) + 2 ^ 32 * spread_bits 16 (hi16 x)

/-- Recombine a `(lo, hi)` pair of 16-bit cells into a 32-bit word. -/
def word_val (p : Nat × Nat) : Nat := p.1 + 2 ^ 16 * p.2

/-- `assign_f1`: even-indexed bits of the two 32-bit halves of the sum of
the three spread operands; returns the `(R_0_even, R_1_even)` cells. -/
def assign_f1_out (b c d : Nat) : Nat × Nat :=
  let m := spread_halves_val b + spread_halves_val c + spread_halves_val d
  (even_bits 16 (m % 2 ^ 32), even_bits 16 (m / 2 ^ 32))

/-- `assign_f2`: odd bits of `spread x + spread y` and of
`spread !x + spread z`, summed with carry; returns the
`(sum_lo, sum_hi)` cells and the emitted carry cell. -/
def assign_f2_out (x y z : Nat) : (Nat × Nat) × Nat :=
  let p := spread_halves_val x + spread_halves_val y
  let p_odd_lo := odd_bits 16 (p % 2 ^ 32)
  let p_odd_hi := odd_bits 16 (p / 2 ^ 32)
  let neg_x_lo := negate_spread (spread_bits 16 (lo16 x))
  let neg_x_hi := negate_spread (spread_bits 16 (hi16 x))
  let q := (neg_x_lo + 2 ^ 32 * neg_x_hi) + spread_halves_val z
  let q_odd_lo := odd_bits 16 (q % 2 ^ 32)
  let q_odd_hi := odd_bits 16 (q / 2 ^ 32)
  let sc := sum_with_carry [(p_odd_lo, p_odd_hi), (q_odd_lo, q_odd_hi)]
  ((sc.1 % 2 ^ 16, sc.1 / 2 ^ 16), sc.2)

/-- `assign_f4`: `assign_f2` with arguments `(z, x, y)`. -/
def assign_f4_out (x y z : Nat) : (Nat × Nat) × Nat := assign_f2_out z x y

/-- `assign_f3`: even bits of the two halves of
`(spread x | spread !y) + spread z`; returns `(R_0_even, R_1_even)`. -/
def assign_f3_out (x y z : Nat) : Nat × Nat :=
  let neg_y_lo := negate_spread (spread_bits 16 (lo16 y))
  let neg_y_hi := negate_spread (spread_bits 16 (hi16 y))
  let or_val := spread_halves_val x ||| (neg_y_lo + 2 ^ 32 * neg_y_hi)
  let or_not_xor := or_val + spread_halves_val z
  (even_bits 16 (or_not_xor % 2 ^ 32), even_bits 16 (or_not_xor / 2 ^ 32))

/-- `assign_f5`: `assign_f3` with arguments `(y, z, x)`. -/
def assign_f5_out (x y z : Nat) : Nat × Nat := assign_f3_out y z x

/-- `assign_sum_afxk`: `(sum, carry)` of the four operands' half pairs. -/
def assign_sum_afxk (a f x k : Nat) : Nat × Nat :=
  sum_with_carry [(lo16 a, hi16 a), (lo16 f, hi16 f), (lo16 x, hi16 x), (lo16 k, hi16 k)]

/-- `assign_sum_re`: `(sum, carry)` of the two operands' half pairs. -/
def assign_sum_re (r e : Nat) : Nat × Nat :=
  sum_with_carry [(lo16 r, hi16 r), (lo16 e, hi16 e)]

/-- `assign_sum_combine_ilr`: `(sum, carry)` of the three operands'
half pairs. -/
def assign_sum_combine_ilr (i l r : Nat) : Nat × Nat :=
  sum_with_carry [(lo16 i, hi16 i), (lo16 l, hi16 l), (lo16 r, hi16 r)]

/-! ## Arithmetic lemmas about the bit utilities. -/

theorem mod_two_pow_succ (w x : Nat) : x % 2 ^ (w + 1) = x % 2 + 2 * (x / 2 % 2 ^ w) := by
  have h2 : (2 : Nat) ^ (w + 1) = 2 * 2 ^ w := by rw [pow_succ]; ring
  have e1 : x % 2 ^ (w + 1) / 2 = x / 2 % 2 ^ w := by
    rw [h2, Nat.mod_mul_right_div_self]
  have e3 : x % 2 ^ (w + 1) % 2 = x % 2 :=
    Nat.mod_mod_of_dvd x (by rw [h2]; exact ⟨2 ^ w, rfl⟩)
  omega

theorem div_two_pow_succ (w x : Nat) : x / 2 ^ (w + 1) = x / 2 / 2 ^ w := by
  have h2 : (2 : Nat) ^ (w + 1) = 2 * 2 ^ w := by rw [pow_succ]; ring
  rw [h2, Nat.div_div_eq_div_mul]

theorem and_split (n : Nat) : ∀ x y : Nat,
    x &&& y = (x % 2 ^ n &&& y % 2 ^ n) + 2 ^ n * (x / 2 ^ n &&& y / 2 ^ n) := by
  induction n with
  | zero => intro x y; simp [Nat.mod_one]
  | succ n ih =>
    intro x y
    have hA : (x &&& y) / 2 = x / 2 &&& y / 2 := Nat.and_div_two
    have hL : (x % 2 ^ (n + 1) &&& y % 2 ^ (n + 1)) / 2
        = x / 2 % 2 ^ n &&& y / 2 % 2 ^ n := by
      rw [Nat.and_div_two, mod_two_pow_succ, mod_two_pow_succ]
      congr 1 <;> omega
    have hI := ih (x / 2) (y / 2)
    rw [← div_two_pow_succ, ← div_two_pow_succ] at hI
    have m1 : (x &&& y) % 2 = 1 ↔ x % 2 = 1 ∧ y % 2 = 1 := Nat.and_mod_two_eq_one
    have m2 : (x % 2 ^ (n + 1) &&& y % 2 ^ (n + 1)) % 2 = 1
        ↔ x % 2 ^ (n + 1) % 2 = 1 ∧ y % 2 ^ (n + 1) % 2 = 1 := Nat.and_mod_two_eq_one
    have e3 : x % 2 ^ (n + 1) % 2 = x % 2 := by rw [mod_two_pow_succ]; omega
    have e4 : y % 2 ^ (n + 1) % 2 = y % 2 := by rw [mod_two_pow_succ]; omega
    rw [e3, e4] at m2
    have h2 : (2 : Nat) ^ (n + 1) * (x / 2 ^ (n + 1) &&& y / 2 ^ (n + 1))
        = 2 * (2 ^ n * (x / 2 ^ (n + 1) &&& y / 2 ^ (n + 1))) := by
      rw [pow_succ]; ring
    rw [h2]
    obtain ⟨u, hu⟩ : ∃ u, 2 ^ n * (x / 2 ^ (n + 1) &&& y / 2 ^ (n + 1)) = u := ⟨_, rfl⟩
    rw [hu] at hI ⊢
    omega

theorem or_split (n : Nat) : ∀ x y : Nat,
    x ||| y = (x % 2 ^ n ||| y % 2 ^ n) + 2 ^ n * (x / 2 ^ n ||| y / 2 ^ n) := by
  induction n with
  | zero => intro x y; simp [Nat.mod_one]
  | succ n ih =>
    intro x y
    have hA : (x ||| y) / 2 = x / 2 ||| y / 2 := Nat.or_div_two
    have hL : (x % 2 ^ (n + 1) ||| y % 2 ^ (n + 1)) / 2
        = x / 2 % 2 ^ n ||| y / 2 % 2 ^ n := by
      rw [Nat.or_div_two, mod_two_pow_succ, mod_two_pow_succ]
      congr 1 <;> omega
    have hI := ih (x / 2) (y / 2)
    rw [← div_two_pow_succ, ← div_two_pow_succ] at hI
    have m1 : (x ||| y) % 2 = 1 ↔ x % 2 = 1 ∨ y % 2 = 1 := Nat.or_mod_two_eq_one
    have m2 : (x % 2 ^ (n + 1) ||| y % 2 ^ (n + 1)) % 2 = 1
        ↔ x % 2 ^ (n + 1) % 2 = 1 ∨ y % 2 ^ (n + 1) % 2 = 1 := Nat.or_mod_two_eq_one
    have e3 : x % 2 ^ (n + 1) % 2 = x % 2 := by rw [mod_two_pow_succ]; omega
    have e4 : y % 2 ^ (n + 1) % 2 = y % 2 := by rw [mod_two_pow_succ]; omega
    rw [e3, e4] at m2
    have h2 : (2 : Nat) ^ (n + 1) * (x / 2 ^ (n + 1) ||| y / 2 ^ (n + 1))
        = 2 * (2 ^ n * (x / 2 ^ (n + 1) ||| y / 2 ^ (n + 1))) := by
      rw [pow_succ]; ring
    rw [h2]
    obtain ⟨u, hu⟩ : ∃ u, 2 ^ n * (x / 2 ^ (n + 1) ||| y / 2 ^ (n + 1)) = u := ⟨_, rfl⟩
    rw [hu] at hI ⊢
    omega

theorem xor_split (n : Nat) : ∀ x y : Nat,
    x ^^^ y = (x % 2 ^ n ^^^ y % 2 ^ n) + 2 ^ n * (x / 2 ^ n ^^^ y / 2 ^ n) := by
  induction n with
  | zero => intro x y; simp [Nat.mod_one]
  | succ n ih =>
    intro x y
    have hA : (x ^^^ y) / 2 = x / 2 ^^^ y / 2 := Nat.xor_div_two
    have hL : (x % 2 ^ (n + 1) ^^^ y % 2 ^ (n + 1)) / 2
        = x / 2 % 2 ^ n ^^^ y / 2 % 2 ^ n := by
      rw [Nat.xor_div_two, mod_two_pow_succ, mod_two_pow_succ]
      congr 1 <;> omega
    have hI := ih (x / 2) (y / 2)
    rw [← div_two_pow_succ, ← div_two_pow_succ] at hI
    have m1 : (x ^^^ y) % 2 = (x + y) % 2 := Nat.xor_mod_two_eq
    have m2 : (x % 2 ^ (n + 1) ^^^ y % 2 ^ (n + 1)) % 2
        = (x % 2 ^ (n + 1) + y % 2 ^ (n + 1)) % 2 := Nat.xor_mod_two_eq
    have e3 : x % 2 ^ (n + 1) % 2 = x % 2 := by rw [mod_two_pow_succ]; omega
    have e4 : y % 2 ^ (n + 1) % 2 = y % 2 := by rw [mod_two_pow_succ]; omega
    have h2 : (2 : Nat) ^ (n + 1) * (x / 2 ^ (n + 1) ^^^ y / 2 ^ (n + 1))
        = 2 * (2 ^ n * (x / 2 ^ (n + 1) ^^^ y / 2 ^ (n + 1))) := by
      rw [pow_succ]; ring
    rw [h2]
    obtain ⟨u, hu⟩ : ∃ u, 2 ^ n * (x / 2 ^ (n + 1) ^^^ y / 2 ^ (n + 1)) = u := ⟨_, rfl⟩
    rw [hu] at hI ⊢
    omega

theorem and_mod_pow (n x y : Nat) : (x &&& y) % 2 ^ n = x % 2 ^ n &&& y % 2 ^ n := by
  have hb : x % 2 ^ n &&& y % 2 ^ n < 2 ^ n :=
    Nat.and_lt_two_pow _ (Nat.mod_lt _ (Nat.two_pow_pos n))
  rw [and_split n x y, Nat.add_mul_mod_self_left, Nat.mod_eq_of_lt hb]

theorem and_div_pow (n x y : Nat) : (x &&& y) / 2 ^ n = x / 2 ^ n &&& y / 2 ^ n := by
  have hb : x % 2 ^ n &&& y % 2 ^ n < 2 ^ n :=
    Nat.and_lt_two_pow _ (Nat.mod_lt _ (Nat.two_pow_pos n))
  rw [and_split n x y, Nat.add_mul_div_left _ _ (Nat.two_pow_pos n),
    Nat.div_eq_of_lt hb, Nat.zero_add]

theorem or_mod_pow (n x y : Nat) : (x ||| y) % 2 ^ n = x % 2 ^ n ||| y % 2 ^ n := by
  have hb : x % 2 ^ n ||| y % 2 ^ n < 2 ^ n :=
    Nat.or_lt_two_pow (Nat.mod_lt _ (Nat.two_pow_pos n)) (Nat.mod_lt _ (Nat.two_pow_pos n))
  rw [or_split n x y, Nat.add_mul_mod_self_left, Nat.mod_eq_of_lt hb]

theorem or_div_pow (n x y : Nat) : (x ||| y) / 2 ^ n = x / 2 ^ n ||| y / 2 ^ n := by
  have hb : x % 2 ^ n ||| y % 2 ^ n < 2 ^ n :=
    Nat.or_lt_two_pow (Nat.mod_lt _ (Nat.two_pow_pos n)) (Nat.mod_lt _ (Nat.two_pow_pos n))
  rw [or_split n x y, Nat.add_mul_div_left _ _ (Nat.two_pow_pos n),
    Nat.div_eq_of_lt hb, Nat.zero_add]

theorem xor_mod_pow (n x y : Nat) : (x ^^^ y) % 2 ^ n = x % 2 ^ n ^^^ y % 2 ^ n := by
  have hb : x % 2 ^ n ^^^ y % 2 ^ n < 2 ^ n :=
    Nat.xor_lt_two_pow (Nat.mod_lt _ (Nat.two_pow_pos n)) (Nat.mod_lt _ (Nat.two_pow_pos n))
  rw [xor_split n x y, Nat.add_mul_mod_self_left, Nat.mod_eq_of_lt hb]

theorem xor_div_pow (n x y : Nat) : (x ^^^ y) / 2 ^ n = x / 2 ^ n ^^^ y / 2 ^ n := by
  have hb : x % 2 ^ n ^^^ y % 2 ^ n < 2 ^ n :=
    Nat.xor_lt_two_pow (Nat.mod_lt _ (Nat.two_pow_pos n)) (Nat.mod_lt _ (Nat.two_pow_pos n))
  rw [xor_split n x y, Nat.add_mul_div_left _ _ (Nat.two_pow_pos n),
    Nat.div_eq_of_lt hb, Nat.zero_add]

theorem even_bits_lt (w : Nat) : ∀ x, even_bits w x < 2 ^ w := by
  induction w with
  | zero => intro x; simp [even_bits]
  | succ w ih =>
    intro x
    have h2 : (2 : Nat) ^ (w + 1) = 2 * 2 ^ w := by rw [pow_succ]; ring
    have := ih (x / 4)
    show x % 2 + 2 * even_bits w (x / 4) < 2 ^ (w + 1)
    omega

theorem spread_bits_bound (w : Nat) : ∀ x, 3 * spread_bits w x < 4 ^ w := by
  induction w with
  | zero => intro x; simp [spread_bits]
  | succ w ih =>
    intro x
    have h4 : (4 : Nat) ^ (w + 1) = 4 * 4 ^ w := by rw [pow_succ]; ring
    have := ih (x / 2)
    show 3 * (x % 2 + 4 * spread_bits w (x / 2)) < 4 ^ (w + 1)
    omega

theorem xor_spread (w : Nat) : ∀ x y : Nat,
    spread_bits w x ^^^ spread_bits w y = spread_bits w (x ^^^ y) := by
  induction w with
  | zero => intro x y; simp [spread_bits]
  | succ w ih =>
    intro x y
    have hx : spread_bits (w + 1) x = x % 2 + 4 * spread_bits w (x / 2) := rfl
    have hy : spread_bits (w + 1) y = y % 2 + 4 * spread_bits w (y / 2) := rfl
    have hxy : spread_bits (w + 1) (x ^^^ y)
        = (x ^^^ y) % 2 + 4 * spread_bits w (x / 2 ^^^ y / 2) := by
      rw [show spread_bits (w + 1) (x ^^^ y)
          = (x ^^^ y) % 2 + 4 * spread_bits w ((x ^^^ y) / 2) from rfl, Nat.xor_div_two]
    have dA : spread_bits (w + 1) x / 2 = 2 * spread_bits w (x / 2) := by rw [hx]; omega
    have dB : spread_bits (w + 1) y / 2 = 2 * spread_bits w (y / 2) := by rw [hy]; omega
    have u2 : (spread_bits (w + 1) x ^^^ spread_bits (w + 1) y) / 2
        = 2 * spread_bits w (x / 2) ^^^ 2 * spread_bits w (y / 2) := by
      rw [Nat.xor_div_two, dA, dB]
    have u4 : (spread_bits (w + 1) x ^^^ spread_bits (w + 1) y) / 2 / 2
        = spread_bits w (x / 2) ^^^ spread_bits w (y / 2) := by
      rw [u2, Nat.xor_div_two]
      congr 1 <;> omega
    have um : (spread_bits (w + 1) x ^^^ spread_bits (w + 1) y) % 2
        = (spread_bits (w + 1) x + spread_bits (w + 1) y) % 2 := Nat.xor_mod_two_eq
    have um2 : (2 * spread_bits w (x / 2) ^^^ 2 * spread_bits w (y / 2)) % 2
        = (2 * spread_bits w (x / 2) + 2 * spread_bits w (y / 2)) % 2 := Nat.xor_mod_two_eq
    have hm : (x ^^^ y) % 2 = (x + y) % 2 := Nat.xor_mod_two_eq
    rw [hxy, ← ih (x / 2) (y / 2)]
    omega

theorem or_spread (w : Nat) : ∀ x y : Nat,
    spread_bits w x ||| spread_bits w y = spread_bits w (x ||| y) := by
  induction w with
  | zero => intro x y; simp [spread_bits]
  | succ w ih =>
    intro x y
    have hx : spread_bits (w + 1) x = x % 2 + 4 * spread_bits w (x / 2) := rfl
    have hy : spread_bits (w + 1) y = y % 2 + 4 * spread_bits w (y / 2) := rfl
    have hxy : spread_bits (w + 1) (x ||| y)
        = (x ||| y) % 2 + 4 * spread_bits w (x / 2 ||| y / 2) := by
      rw [show spread_bits (w + 1) (x ||| y)
          = (x ||| y) % 2 + 4 * spread_bits w ((x ||| y) / 2) from rfl, Nat.or_div_two]
    have dA : spread_bits (w + 1) x / 2 = 2 * spread_bits w (x / 2) := by rw [hx]; omega
    have dB : spread_bits (w + 1) y / 2 = 2 * spread_bits w (y / 2) := by rw [hy]; omega
    have u2 : (spread_bits (w + 1) x ||| spread_bits (w + 1) y) / 2
        = 2 * spread_bits w (x / 2) ||| 2 * spread_bits w (y / 2) := by
      rw [Nat.or_div_two, dA, dB]
    have u4 : (spread_bits (w + 1) x ||| spread_bits (w + 1) y) / 2 / 2
        = spread_bits w (x / 2) ||| spread_bits w (y / 2) := by
      rw [u2, Nat.or_div_two]
      congr 1 <;> omega
    have um : (spread_bits (w + 1) x ||| spread_bits (w + 1) y) % 2 = 1
        ↔ spread_bits (w + 1) x % 2 = 1 ∨ spread_bits (w + 1) y % 2 = 1 :=
      Nat.or_mod_two_eq_one
    have um2 : (2 * spread_bits w (x / 2) ||| 2 * spread_bits w (y / 2)) % 2 = 1
        ↔ 2 * spread_bits w (x / 2) % 2 = 1 ∨ 2 * spread_bits w (y / 2) % 2 = 1 :=
      Nat.or_mod_two_eq_one
    have hm : (x ||| y) % 2 = 1 ↔ x % 2 = 1 ∨ y % 2 = 1 := Nat.or_mod_two_eq_one
    rw [hxy, ← ih (x / 2) (y / 2)]
    omega

theorem even_odd_spread_add (w : Nat) : ∀ x y : Nat, x < 2 ^ w → y < 2 ^ w →
    even_bits w (spread_bits w x + spread_bits w y) = (x ^^^ y) ∧
    even_bits w ((spread_bits w x + spread_bits w y) / 2) = (x &&& y) := by
  induction w with
  | zero =>
    intro x y hx hy
    have : x = 0 := by omega
    have : y = 0 := by omega
    subst_vars
    simp [spread_bits, even_bits]
  | succ w ih =>
    intro x y hx hy
    have h2 : (2 : Nat) ^ (w + 1) = 2 * 2 ^ w := by rw [pow_succ]; ring
    obtain ⟨ihE, ihO⟩ := ih (x / 2) (y / 2) (by omega) (by omega)
    have hS : spread_bits (w + 1) x + spread_bits (w + 1) y
        = (x % 2 + y % 2) + 4 * (spread_bits w (x / 2) + spread_bits w (y / 2)) := by
      show x % 2 + 4 * spread_bits w (x / 2) + (y % 2 + 4 * spread_bits w (y / 2)) = _
      ring
    constructor
    · show (spread_bits (w + 1) x + spread_bits (w + 1) y) % 2
          + 2 * even_bits w ((spread_bits (w + 1) x + spread_bits (w + 1) y) / 4)
          = x ^^^ y
      have e1 : (spread_bits (w + 1) x + spread_bits (w + 1) y) / 4
          = spread_bits w (x / 2) + spread_bits w (y / 2) := by omega
      rw [e1, ihE]
      have hxd : (x ^^^ y) / 2 = x / 2 ^^^ y / 2 := Nat.xor_div_two
      have hxm : (x ^^^ y) % 2 = (x + y) % 2 := Nat.xor_mod_two_eq
      omega
    · show ((spread_bits (w + 1) x + spread_bits (w + 1) y) / 2) % 2
          + 2 * even_bits w ((spread_bits (w + 1) x + spread_bits (w + 1) y) / 2 / 4)
          = x &&& y
      have e1 : (spread_bits (w + 1) x + spread_bits (w + 1) y) / 2 / 4
          = (spread_bits w (x / 2) + spread_bits w (y / 2)) / 2 := by omega
      rw [e1, ihO]
      have hxd : (x &&& y) / 2 = x / 2 &&& y / 2 := Nat.and_div_two
      have hxm : (x &&& y) % 2 = 1 ↔ x % 2 = 1 ∧ y % 2 = 1 := Nat.and_mod_two_eq_one
      omega

theorem even_spread_add3 (w : Nat) : ∀ x y z : Nat, x < 2 ^ w → y < 2 ^ w → z < 2 ^ w →
    even_bits w (spread_bits w x + spread_bits w y + spread_bits w z)
      = (x ^^^ y ^^^ z) := by
  induction w with
  | zero =>
    intro x y z hx hy hz
    have : x = 0 := by omega
    have : y = 0 := by omega
    have : z = 0 := by omega
    subst_vars
    simp [spread_bits, even_bits]
  | succ w ih =>
    intro x y z hx hy hz
    have h2 : (2 : Nat) ^ (w + 1) = 2 * 2 ^ w := by rw [pow_succ]; ring
    have ihE := ih (x / 2) (y / 2) (z / 2) (by omega) (by omega) (by omega)
    have hS : spread_bits (w + 1) x + spread_bits (w + 1) y + spread_bits (w + 1) z
        = (x % 2 + y % 2 + z % 2)
          + 4 * (spread_bits w (x / 2) + spread_bits w (y / 2) + spread_bits w (z / 2)) := by
      show x % 2 + 4 * spread_bits w (x / 2) + (y % 2 + 4 * spread_bits w (y / 2))
          + (z % 2 + 4 * spread_bits w (z / 2)) = _
      ring
    show (spread_bits (w + 1) x + spread_bits (w + 1) y + spread_bits (w + 1) z) % 2
        + 2 * even_bits w
          ((spread_bits (w + 1) x + spread_bits (w + 1) y + spread_bits (w + 1) z) / 4)
        = x ^^^ y ^^^ z
    have e1 : (spread_bits (w + 1) x + spread_bits (w + 1) y + spread_bits (w + 1) z) / 4
        = spread_bits w (x / 2) + spread_bits w (y / 2) + spread_bits w (z / 2) := by omega
    rw [e1, ihE]
    have hd1 : (x ^^^ y ^^^ z) / 2 = x / 2 ^^^ y / 2 ^^^ z / 2 := by
      rw [Nat.xor_div_two, Nat.xor_div_two]
    have hm1 : (x ^^^ y ^^^ z) % 2 = ((x ^^^ y) + z) % 2 := Nat.xor_mod_two_eq
    have hm2 : (x ^^^ y) % 2 = (x + y) % 2 := Nat.xor_mod_two_eq
    omega

theorem add_eq_or_of_and_eq_zero (w : Nat) : ∀ x y : Nat, x < 2 ^ w → y < 2 ^ w →
    x &&& y = 0 → x + y = (x ||| y) := by
  induction w with
  | zero =>
    intro x y hx hy _
    have : x = 0 := by omega
    have : y = 0 := by omega
    subst_vars
    simp
  | succ w ih =>
    intro x y hx hy hand
    have h2 : (2 : Nat) ^ (w + 1) = 2 * 2 ^ w := by rw [pow_succ]; ring
    have hd : x / 2 &&& y / 2 = 0 := by
      rw [← Nat.and_div_two, hand]
    have hIH := ih (x / 2) (y / 2) (by omega) (by omega) hd
    have hm : (x &&& y) % 2 = 1 ↔ x % 2 = 1 ∧ y % 2 = 1 := Nat.and_mod_two_eq_one
    have hu : (x ||| y) % 2 = 1 ↔ x % 2 = 1 ∨ y % 2 = 1 := Nat.or_mod_two_eq_one
    have hud : (x ||| y) / 2 = x / 2 ||| y / 2 := Nat.or_div_two
    omega

theorem rol_eq (w s : Nat) (hw : w < 2 ^ 32) (hs1 : 1 ≤ s) (hs2 : s ≤ 31) :
    rol w s = 2 ^ s * (w % 2 ^ (32 - s)) + w / 2 ^ (32 - s) := by
  have h32 : (2 : Nat) ^ 32 = 2 ^ (32 - s) * 2 ^ s := by
    rw [← pow_add]
    congr 1
    omega
  have hv : w / 2 ^ (32 - s) < 2 ^ s := by
    have hw2 : w < 2 ^ s * 2 ^ (32 - s) := by
      calc w < 2 ^ 32 := hw
        _ = 2 ^ s * 2 ^ (32 - s) := by rw [h32, Nat.mul_comm]
    exact (Nat.div_lt_iff_lt_mul (Nat.two_pow_pos _)).mpr hw2
  rw [rol, Nat.shiftLeft_eq, Nat.shiftRight_eq_div_pow, h32, Nat.mul_mod_mul_right,
    Nat.mul_comm (w % 2 ^ (32 - s)) (2 ^ s), ← Nat.mul_add_lt_is_or hv]

theorem rol_mask (w s : Nat) (hw : w < 2 ^ 32) :
    rol w s = ((w <<< s) ||| (w >>> (32 - s))) % 2 ^ 32 := by
  have hv : w >>> (32 - s) < 2 ^ 32 := by
    rw [Nat.shiftRight_eq_div_pow]
    exact lt_of_le_of_lt (Nat.div_le_self _ _) hw
  rw [rol, or_mod_pow, Nat.mod_eq_of_lt hv]

/-! ## Value lemmas for the round-function assignments. -/

theorem spread_le (x : Nat) : spread_bits 16 x ≤ 1431655765 := by
  have h := spread_bits_bound 16 x
  have h4 : (4 : Nat) ^ 16 = 4294967296 := by norm_num
  omega

theorem spread_halves_val_lt (x : Nat) (hx : x < 2 ^ 32) :
    spread_halves_val x = spread_bits 16 (x % 2 ^ 16) + 2 ^ 32 * spread_bits 16 (x / 2 ^ 16) := by
  have h : x / 2 ^ 16 % 2 ^ 16 = x / 2 ^ 16 := by omega
  unfold spread_halves_val lo16 hi16
  rw [h]

theorem negate_spread_spread (v : Nat) :
    negate_spread (spread_bits 16 v) = spread_bits 16 (v ^^^ 65535) := by
  unfold negate_spread MASK_EVEN_32
  rw [show (1431655765 : Nat) = spread_bits 16 65535 from by decide, xor_spread]

theorem sum_with_carry_two (a b c d : Nat) :
    sum_with_carry [(a, b), (c, d)]
      = ((a + 2 ^ 16 * b + (c + 2 ^ 16 * d)) % 2 ^ 32,
         (a + 2 ^ 16 * b + (c + 2 ^ 16 * d)) / 2 ^ 32) := by
  simp [sum_with_carry]

theorem sum_with_carry_three (a b c d e f : Nat) :
    sum_with_carry [(a, b), (c, d), (e, f)]
      = ((a + 2 ^ 16 * b + (c + 2 ^ 16 * d) + (e + 2 ^ 16 * f)) % 2 ^ 32,
         (a + 2 ^ 16 * b + (c + 2 ^ 16 * d) + (e + 2 ^ 16 * f)) / 2 ^ 32) := by
  simp [sum_with_carry]

theorem sum_with_carry_four (a b c d e f g h : Nat) :
    sum_with_carry [(a, b), (c, d), (e, f), (g, h)]
      = ((a + 2 ^ 16 * b + (c + 2 ^ 16 * d) + (e + 2 ^ 16 * f) + (g + 2 ^ 16 * h)) % 2 ^ 32,
         (a + 2 ^ 16 * b + (c + 2 ^ 16 * d) + (e + 2 ^ 16 * f) + (g + 2 ^ 16 * h)) / 2 ^ 32) := by
  simp [sum_with_carry]

theorem assign_f1_val (b c d : Nat) (hb : b < 2 ^ 32) (hc : c < 2 ^ 32) (hd : d < 2 ^ 32) :
    word_val (assign_f1_out b c d) = f1 b c d := by
  have hbs := spread_halves_val_lt b hb
  have hcs := spread_halves_val_lt c hc
  have hds := spread_halves_val_lt d hd
  have s1 := spread_le (b % 2 ^ 16)
  have s2 := spread_le (c % 2 ^ 16)
  have s3 := spread_le (d % 2 ^ 16)
  have s4 := spread_le (b / 2 ^ 16)
  have s5 := spread_le (c / 2 ^ 16)
  have s6 := spread_le (d / 2 ^ 16)
  have hlo : (spread_halves_val b + spread_halves_val c + spread_halves_val d) % 2 ^ 32
      = spread_bits 16 (b % 2 ^ 16) + spread_bits 16 (c % 2 ^ 16)
        + spread_bits 16 (d % 2 ^ 16) := by
    rw [hbs, hcs, hds]
    omega
  have hhi : (spread_halves_val b + spread_halves_val c + spread_halves_val d) / 2 ^ 32
      = spread_bits 16 (b / 2 ^ 16) + spread_bits 16 (c / 2 ^ 16)
        + spread_bits 16 (d / 2 ^ 16) := by
    rw [hbs, hcs, hds]
    omega
  have h3lo := even_spread_add3 16 (b % 2 ^ 16) (c % 2 ^ 16) (d % 2 ^ 16)
    (by omega) (by omega) (by omega)
  have h3hi := even_spread_add3 16 (b / 2 ^ 16) (c / 2 ^ 16) (d / 2 ^ 16)
    (by omega) (by omega) (by omega)
  have top : b ^^^ c ^^^ d
      = (b % 2 ^ 16 ^^^ c % 2 ^ 16 ^^^ d % 2 ^ 16)
        + 2 ^ 16 * (b / 2 ^ 16 ^^^ c / 2 ^ 16 ^^^ d / 2 ^ 16) := by
    have t1 := xor_split 16 (b ^^^ c) d
    rw [xor_mod_pow 16 b c, xor_div_pow 16 b c] at t1
    exact t1
  simp only [assign_f1_out, word_val, f1]
  rw [hlo, hhi, h3lo, h3hi, top]

theorem assign_f2_parts (x y z : Nat) (hx : x < 2 ^ 32) (hy : y < 2 ^ 32) (hz : z < 2 ^ 32) :
    word_val (assign_f2_out x y z).1 = f2 x y z ∧ (assign_f2_out x y z).2 = 0 := by
  have hxs := spread_halves_val_lt x hx
  have hys := spread_halves_val_lt y hy
  have hzs := spread_halves_val_lt z hz
  have s1 := spread_le (x % 2 ^ 16)
  have s2 := spread_le (y % 2 ^ 16)
  have s3 := spread_le (z % 2 ^ 16)
  have s4 := spread_le (x / 2 ^ 16)
  have s5 := spread_le (y / 2 ^ 16)
  have s6 := spread_le (z / 2 ^ 16)
  have s7 := spread_le (x % 2 ^ 16 ^^^ 65535)
  have s8 := spread_le (x / 2 ^ 16 ^^^ 65535)
  -- the P half-sums
  have hplo : (spread_halves_val x + spread_halves_val y) % 2 ^ 32
      = spread_bits 16 (x % 2 ^ 16) + spread_bits 16 (y % 2 ^ 16) := by
    rw [hxs, hys]
    omega
  have hphi : (spread_halves_val x + spread_halves_val y) / 2 ^ 32
      = spread_bits 16 (x / 2 ^ 16) + spread_bits 16 (y / 2 ^ 16) := by
    rw [hxs, hys]
    omega
  have hpol : odd_bits 16 ((spread_halves_val x + spread_halves_val y) % 2 ^ 32)
      = x % 2 ^ 16 &&& y % 2 ^ 16 := by
    unfold odd_bits
    rw [hplo]
    exact (even_odd_spread_add 16 (x % 2 ^ 16) (y % 2 ^ 16) (by omega) (by omega)).2
  have hpoh : odd_bits 16 ((spread_halves_val x + spread_halves_val y) / 2 ^ 32)
      = x / 2 ^ 16 &&& y / 2 ^ 16 := by
    unfold odd_bits
    rw [hphi]
    exact (even_odd_spread_add 16 (x / 2 ^ 16) (y / 2 ^ 16) (by omega) (by omega)).2
  -- the Q half-sums with the negated first operand
  have hnl : negate_spread (spread_bits 16 (lo16 x)) = spread_bits 16 (x % 2 ^ 16 ^^^ 65535) := by
    unfold lo16
    exact negate_spread_spread _
  have hnh : negate_spread (spread_bits 16 (hi16 x)) = spread_bits 16 (x / 2 ^ 16 ^^^ 65535) := by
    unfold hi16
    rw [show x / 2 ^ 16 % 2 ^ 16 = x / 2 ^ 16 from by omega]
    exact negate_spread_spread _
  have hqlo : (negate_spread (spread_bits 16 (lo16 x))
        + 2 ^ 32 * negate_spread (spread_bits 16 (hi16 x)) + spread_halves_val z) % 2 ^ 32
      = spread_bits 16 (x % 2 ^ 16 ^^^ 65535) + spread_bits 16 (z % 2 ^ 16) := by
    rw [hnl, hnh, hzs]
    omega
  have hqhi : (negate_spread (spread_bits 16 (lo16 x))
        + 2 ^ 32 * negate_spread (spread_bits 16 (hi16 x)) + spread_halves_val z) / 2 ^ 32
      = spread_bits 16 (x / 2 ^ 16 ^^^ 65535) + spread_bits 16 (z / 2 ^ 16) := by
    rw [hnl, hnh, hzs]
    omega
  have hqol : odd_bits 16 ((negate_spread (spread_bits 16 (lo16 x))
        + 2 ^ 32 * negate_spread (spread_bits 16 (hi16 x)) + spread_halves_val z) % 2 ^ 32)
      = (x % 2 ^ 16 ^^^ 65535) &&& z % 2 ^ 16 := by
    unfold odd_bits
    rw [hqlo]
    exact (even_odd_spread_add 16 (x % 2 ^ 16 ^^^ 65535) (z % 2 ^ 16)
      (Nat.xor_lt_two_pow (by omega) (by omega)) (by omega)).2
  have hqoh : odd_bits 16 ((negate_spread (spread_bits 16 (lo16 x))
        + 2 ^ 32 * negate_spread (spread_bits 16 (hi16 x)) + spread_halves_val z) / 2 ^ 32)
      = (x / 2 ^ 16 ^^^ 65535) &&& z / 2 ^ 16 := by
    unfold odd_bits
    rw [hqhi]
    exact (even_odd_spread_add 16 (x / 2 ^ 16 ^^^ 65535) (z / 2 ^ 16)
      (Nat.xor_lt_two_pow (by omega) (by omega)) (by omega)).2
  -- recombine the halves into the 32-bit words
  have hand : (x % 2 ^ 16 &&& y % 2 ^ 16) + 2 ^ 16 * (x / 2 ^ 16 &&& y / 2 ^ 16)
      = x &&& y := (and_split 16 x y).symm
  have hm1 : (x ^^^ 4294967295) % 2 ^ 16 = x % 2 ^ 16 ^^^ 65535 := by
    rw [xor_mod_pow]
    norm_num
  have hm2 : (x ^^^ 4294967295) / 2 ^ 16 = x / 2 ^ 16 ^^^ 65535 := by
    rw [xor_div_pow]
    norm_num
  have hand2 : ((x % 2 ^ 16 ^^^ 65535) &&& z % 2 ^ 16)
        + 2 ^ 16 * ((x / 2 ^ 16 ^^^ 65535) &&& z / 2 ^ 16)
      = (x ^^^ 4294967295) &&& z := by
    have h := (and_split 16 (x ^^^ 4294967295) z).symm
    rw [hm1, hm2] at h
    exact h
  -- disjointness of the two AND masks
  have hself : x &&& 4294967295 = x % 2 ^ 32 := by
    have h := Nat.and_pow_two_sub_one_eq_mod x 32
    norm_num at h
    exact h
  have h0 : x &&& (x ^^^ 4294967295) = 0 := by
    rw [Nat.and_xor_distrib_left, Nat.and_self, hself, Nat.mod_eq_of_lt hx, Nat.xor_self]
  have hdisj : (x &&& y) &&& ((x ^^^ 4294967295) &&& z) = 0 := by
    calc (x &&& y) &&& ((x ^^^ 4294967295) &&& z)
        = (y &&& x) &&& ((x ^^^ 4294967295) &&& z) := by rw [Nat.and_comm x y]
      _ = y &&& (x &&& ((x ^^^ 4294967295) &&& z)) := by rw [Nat.and_assoc]
      _ = y &&& (x &&& (x ^^^ 4294967295) &&& z) := by rw [Nat.and_assoc]
      _ = 0 := by rw [h0]; simp
  have hu : x &&& y < 2 ^ 32 := Nat.and_lt_two_pow _ hy
  have hv : (x ^^^ 4294967295) &&& z < 2 ^ 32 := Nat.and_lt_two_pow _ hz
  have hor := add_eq_or_of_and_eq_zero 32 (x &&& y) ((x ^^^ 4294967295) &&& z) hu hv hdisj
  have hsum_lt : (x &&& y) + ((x ^^^ 4294967295) &&& z) < 2 ^ 32 := by
    rw [hor]
    exact Nat.or_lt_two_pow hu hv
  have hWlt : (x &&& y) ||| ((x ^^^ 4294967295) &&& z) < 2 ^ 32 := Nat.or_lt_two_pow hu hv
  -- assemble
  simp only [assign_f2_out, word_val, f2]
  rw [sum_with_carry_two, hpol, hpoh, hqol, hqoh]
  have htot : (x % 2 ^ 16 &&& y % 2 ^ 16) + 2 ^ 16 * (x / 2 ^ 16 &&& y / 2 ^ 16)
      + (((x % 2 ^ 16 ^^^ 65535) &&& z % 2 ^ 16)
        + 2 ^ 16 * ((x / 2 ^ 16 ^^^ 65535) &&& z / 2 ^ 16))
      = (x &&& y) + ((x ^^^ 4294967295) &&& z) := by
    rw [hand, hand2]
  rw [htot]
  constructor
  · rw [Nat.mod_eq_of_lt hsum_lt, hor]
    omega
  · omega

theorem assign_f3_val (x y z : Nat) (hx : x < 2 ^ 32) (hy : y < 2 ^ 32) (hz : z < 2 ^ 32) :
    word_val (assign_f3_out x y z) = f3 x y z := by
  have hxs := spread_halves_val_lt x hx
  have hys := spread_halves_val_lt y hy
  have hzs := spread_halves_val_lt z hz
  have s1 := spread_le (x % 2 ^ 16)
  have s2 := spread_le (z % 2 ^ 16)
  have s4 := spread_le (x / 2 ^ 16)
  have s5 := spread_le (z / 2 ^ 16)
  have s7 := spread_le (y % 2 ^ 16 ^^^ 65535)
  have s8 := spread_le (y / 2 ^ 16 ^^^ 65535)
  have s9 := spread_le (x % 2 ^ 16 ||| (y % 2 ^ 16 ^^^ 65535))
  have s10 := spread_le (x / 2 ^ 16 ||| (y / 2 ^ 16 ^^^ 65535))
  have hnl : negate_spread (spread_bits 16 (lo16 y)) = spread_bits 16 (y % 2 ^ 16 ^^^ 65535) := by
    unfold lo16
    exact negate_spread_spread _
  have hnh : negate_spread (spread_bits 16 (hi16 y)) = spread_bits 16 (y / 2 ^ 16 ^^^ 65535) := by
    unfold hi16
    rw [show y / 2 ^ 16 % 2 ^ 16 = y / 2 ^ 16 from by omega]
    exact negate_spread_spread _
  -- the bitwise OR of the two spread words is the spread of the OR
  have hor : spread_halves_val x
        ||| (negate_spread (spread_bits 16 (lo16 y)) + 2 ^ 32 * negate_spread (spread_bits 16 (hi16 y)))
      = spread_bits 16 (x % 2 ^ 16 ||| (y % 2 ^ 16 ^^^ 65535))
        + 2 ^ 32 * spread_bits 16 (x / 2 ^ 16 ||| (y / 2 ^ 16 ^^^ 65535)) := by
    have h := or_split 32 (spread_halves_val x)
      (negate_spread (spread_bits 16 (lo16 y)) + 2 ^ 32 * negate_spread (spread_bits 16 (hi16 y)))
    have hA1 : spread_halves_val x % 2 ^ 32 = spread_bits 16 (x % 2 ^ 16) := by
      rw [hxs]
      omega
    have hA2 : spread_halves_val x / 2 ^ 32 = spread_bits 16 (x / 2 ^ 16) := by
      rw [hxs]
      omega
    have hB1 : (negate_spread (spread_bits 16 (lo16 y))
          + 2 ^ 32 * negate_spread (spread_bits 16 (hi16 y))) % 2 ^ 32
        = spread_bits 16 (y % 2 ^ 16 ^^^ 65535) := by
      rw [hnl, hnh]
      omega
    have hB2 : (negate_spread (spread_bits 16 (lo16 y))
          + 2 ^ 32 * negate_spread (spread_bits 16 (hi16 y))) / 2 ^ 32
        = spread_bits 16 (y / 2 ^ 16 ^^^ 65535) := by
      rw [hnl, hnh]
      omega
    rw [hA1, hA2, hB1, hB2, or_spread, or_spread] at h
    exact h
  have hslo : ((spread_halves_val x
        ||| (negate_spread (spread_bits 16 (lo16 y)) + 2 ^ 32 * negate_spread (spread_bits 16 (hi16 y))))
        + spread_halves_val z) % 2 ^ 32
      = spread_bits 16 (x % 2 ^ 16 ||| (y % 2 ^ 16 ^^^ 65535)) + spread_bits 16 (z % 2 ^ 16) := by
    rw [hor, hzs]
    omega
  have hshi : ((spread_halves_val x
        ||| (negate_spread (spread_bits 16 (lo16 y)) + 2 ^ 32 * negate_spread (spread_bits 16 (hi16 y))))
        + spread_halves_val z) / 2 ^ 32
      = spread_bits 16 (x / 2 ^ 16 ||| (y / 2 ^ 16 ^^^ 65535)) + spread_bits 16 (z / 2 ^ 16) := by
    rw [hor, hzs]
    omega
  have helo := (even_odd_spread_add 16 (x % 2 ^ 16 ||| (y % 2 ^ 16 ^^^ 65535)) (z % 2 ^ 16)
    (Nat.or_lt_two_pow (by omega) (Nat.xor_lt_two_pow (by omega) (by omega))) (by omega)).1
  have hehi := (even_odd_spread_add 16 (x / 2 ^ 16 ||| (y / 2 ^ 16 ^^^ 65535)) (z / 2 ^ 16)
    (Nat.or_lt_two_pow (by omega) (Nat.xor_lt_two_pow (by omega) (by omega))) (by omega)).1
  -- decompose the specification value by halves
  have hm1 : (y ^^^ 4294967295) % 2 ^ 16 = y % 2 ^ 16 ^^^ 65535 := by
    rw [xor_mod_pow]
    norm_num
  have hm2 : (y ^^^ 4294967295) / 2 ^ 16 = y / 2 ^ 16 ^^^ 65535 := by
    rw [xor_div_pow]
    norm_num
  have ho1 : (x ||| (y ^^^ 4294967295)) % 2 ^ 16 = x % 2 ^ 16 ||| (y % 2 ^ 16 ^^^ 65535) := by
    rw [or_mod_pow, hm1]
  have ho2 : (x ||| (y ^^^ 4294967295)) / 2 ^ 16 = x / 2 ^ 16 ||| (y / 2 ^ 16 ^^^ 65535) := by
    rw [or_div_pow, hm2]
  have top : (x ||| (y ^^^ 4294967295)) ^^^ z
      = ((x % 2 ^ 16 ||| (y % 2 ^ 16 ^^^ 65535)) ^^^ z % 2 ^ 16)
        + 2 ^ 16 * ((x / 2 ^ 16 ||| (y / 2 ^ 16 ^^^ 65535)) ^^^ z / 2 ^ 16) := by
    have t1 := xor_split 16 (x ||| (y ^^^ 4294967295)) z
    rw [ho1, ho2] at t1
    exact t1
  simp only [assign_f3_out, word_val, f3]
  rw [hslo, hshi, helo, hehi, top]

theorem assign_f4_val (x y z : Nat) (hx : x < 2 ^ 32) (hy : y < 2 ^ 32) (hz : z < 2 ^ 32) :
    word_val (assign_f4_out x y z).1 = f4 x y z := by
  have h := (assign_f2_parts z x y hz hx hy).1
  unfold assign_f4_out
  rw [h]
  unfold f2 f4
  rw [Nat.and_comm z x, Nat.and_comm _ y]

theorem assign_f5_val (x y z : Nat) (hx : x < 2 ^ 32) (hy : y < 2 ^ 32) (hz : z < 2 ^ 32) :
    word_val (assign_f5_out x y z) = f5 x y z := by
  have h := assign_f3_val y z x hy hz hx
  unfold assign_f5_out
  rw [h]
  unfold f3 f5
  rw [Nat.xor_comm _ x]

theorem and_not_self_disjoint (x y z : Nat) (hx : x < 2 ^ 32) :
    (x &&& y) &&& ((x ^^^ 4294967295) &&& z) = 0 := by
  have hself : x &&& 4294967295 = x % 2 ^ 32 := by
    have h := Nat.and_pow_two_sub_one_eq_mod x 32
    norm_num at h
    exact h
  have h0 : x &&& (x ^^^ 4294967295) = 0 := by
    rw [Nat.and_xor_distrib_left, Nat.and_self, hself, Nat.mod_eq_of_lt hx, Nat.xor_self]
  calc (x &&& y) &&& ((x ^^^ 4294967295) &&& z)
      = (y &&& x) &&& ((x ^^^ 4294967295) &&& z) := by rw [Nat.and_comm x y]
    _ = y &&& (x &&& ((x ^^^ 4294967295) &&& z)) := by rw [Nat.and_assoc]
    _ = y &&& (x &&& (x ^^^ 4294967295) &&& z) := by rw [Nat.and_assoc]
    _ = 0 := by rw [h0]; simp

/-! ## The modular-addition gates (`compression_gates.rs`).

Each gate is the conjunction of its polynomial equation, read as a `Nat`
equation between the cell values, and its carry range check.  The
`Gate::range_check(v, 0, k)` helper lives in the missing
`table16/gates.rs`; modelled from the spec and the call-site comments
(`// tag <= 3 => b < 2^11`), it constrains the cell to `v ≤ k`. -/

/-- `CompressionGate::sum_afxk_gate`: four-operand sum with
`range_check(carry, 0, 2)`. -/
def sum_afxk_gate (sum_lo sum_hi carry a_lo a_hi f_lo f_hi x_lo x_hi k_lo k_hi : Nat) : Prop :=
  carry ≤ 2 ∧
  a_lo + f_lo + x_lo + k_lo + (a_hi + f_hi + x_hi + k_hi) * 2 ^ 16
    = carry * 2 ^ 32 + (sum_lo + sum_hi * 2 ^ 16)

/-- `CompressionGate::sum_re_gate`: two-operand sum with
`range_check(carry, 0, 1)`. -/
def sum_re_gate (sum_lo sum_hi carry rol_lo rol_hi e_lo e_hi : Nat) : Prop :=
  carry ≤ 1 ∧
  rol_lo + e_lo + (rol_hi + e_hi) * 2 ^ 16 = carry * 2 ^ 32 + (sum_lo + sum_hi * 2 ^ 16)

/-- `CompressionGate::sum_combine_ilr`: three-operand sum with
`range_check(carry, 0, 1)`. -/
def sum_combine_ilr_gate (sum_lo sum_hi carry i_lo i_hi l_lo l_hi r_lo r_hi : Nat) : Prop :=
  carry ≤ 1 ∧
  i_lo + l_lo + r_lo + (i_hi + l_hi + r_hi) * 2 ^ 16 = carry * 2 ^ 32 + (sum_lo + sum_hi * 2 ^ 16)

/-! ## State combination (`subregion_main.rs` / `native.rs`). -/

/-- `assign_combine_ilr`: the five `assign_sum_combine_ilr` call sites. -/
def assign_combine_ilr (ini l r : State) : State :=
  ⟨(assign_sum_combine_ilr ini.b l.c r.d).1,
   (assign_sum_combine_ilr ini.c l.d r.e).1,
   (assign_sum_combine_ilr ini.d l.e r.a).1,
   (assign_sum_combine_ilr ini.e l.a r.b).1,
   (assign_sum_combine_ilr ini.a l.b r.c).1⟩

/-- Index view of the five state words, `A..E` as `0..4`. -/
def state_get (s : State) : Nat → Nat
  | 0 => s.a
  | 1 => s.b
  | 2 => s.c
  | 3 => s.d
  | 4 => s.e
  | _ => 0

/-- The left-lane source index for output word `i` of the combination
step, read off the five call sites of `assign_sum_combine_ilr` (equally,
of `combine_left_right_states`). -/
def perm_l : Nat → Nat
  | 0 => 2
  | 1 => 3
  | 2 => 4
  | 3 => 0
  | 4 => 1
  | _ => 0

/-- The right-lane source index for output word `i` of the combination
step, read off the five call sites. -/
def perm_r : Nat → Nat
  | 0 => 3
  | 1 => 4
  | 2 => 0
  | 3 => 1
  | 4 => 2
  | _ => 0

/-! ## Claims C1, C3, C5, C7, C9, C10. -/

/-- Claim C1: for all 32-bit words `b`, `c`, `d`, the circuit output of
each round function — the word recombined from the even-indexed bits of
the field sum of the spread operands — equals its bitwise definition
`f1 = b^c^d`, `f2 = (b&c)|(!b&d)`, `f3 = (b|!c)^d`, `f4 = (b&d)|(c&!d)`,
`f5 = b^(c|!d)`, with NOT taken over 32 bits. -/
theorem claim1_round_function_outputs (b c d : Nat)
    (hb : b < 2 ^ 32) (hc : c < 2 ^ 32) (hd : d < 2 ^ 32) :
    word_val (assign_f1_out b c d) = f1 b c d ∧
    word_val (assign_f2_out b c d).1 = f2 b c d ∧
    word_val (assign_f3_out b c d) = f3 b c d ∧
    word_val (assign_f4_out b c d).1 = f4 b c d ∧
    word_val (assign_f5_out b c d) = f5 b c d :=
  ⟨assign_f1_val b c d hb hc hd, (assign_f2_parts b c d hb hc hd).1,
   assign_f3_val b c d hb hc hd, assign_f4_val b c d hb hc hd,
   assign_f5_val b c d hb hc hd⟩

/-- Concrete instance of claim C1 at `b = 0x12345678`, `c = 0x9ABCDEF0`,
`d = 0x0F1E2D3C`. -/
theorem claim1_witness :
    (0x12345678 : Nat) < 2 ^ 32 ∧
    (word_val (assign_f1_out 0x12345678 0x9ABCDEF0 0x0F1E2D3C)
        = f1 0x12345678 0x9ABCDEF0 0x0F1E2D3C ∧
      word_val (assign_f2_out 0x12345678 0x9ABCDEF0 0x0F1E2D3C).1
        = f2 0x12345678 0x9ABCDEF0 0x0F1E2D3C ∧
      word_val (assign_f3_out 0x12345678 0x9ABCDEF0 0x0F1E2D3C)
        = f3 0x12345678 0x9ABCDEF0 0x0F1E2D3C ∧
      word_val (assign_f4_out 0x12345678 0x9ABCDEF0 0x0F1E2D3C).1
        = f4 0x12345678 0x9ABCDEF0 0x0F1E2D3C ∧
      word_val (assign_f5_out 0x12345678 0x9ABCDEF0 0x0F1E2D3C)
        = f5 0x12345678 0x9ABCDEF0 0x0F1E2D3C) :=
  ⟨by decide, claim1_round_function_outputs 0x12345678 0x9ABCDEF0 0x0F1E2D3C
    (by decide) (by decide) (by decide)⟩

/-- Claim C9: for all 32-bit `b`, `c`, `d`, the words `b & c` and
`!b & d` are bitwise disjoint, their integer sum equals their bitwise OR
and stays below `2^32`, and consequently the carry cell emitted by
`assign_f2` (and by `assign_f4`, which permutes into the same routine)
is zero, satisfying the f2f4 gate's `range_check(carry, 0, 0)`. -/
theorem claim9_f2_carry_zero (b c d : Nat)
    (hb : b < 2 ^ 32) (hc : c < 2 ^ 32) (hd : d < 2 ^ 32) :
    (b &&& c) &&& ((b ^^^ 0xFFFFFFFF) &&& d) = 0 ∧
    (b &&& c) + ((b ^^^ 0xFFFFFFFF) &&& d) = (b &&& c) ||| ((b ^^^ 0xFFFFFFFF) &&& d) ∧
    (b &&& c) + ((b ^^^ 0xFFFFFFFF) &&& d) ≤ 2 ^ 32 - 1 ∧
    (assign_f2_out b c d).2 = 0 ∧
    (assign_f4_out b c d).2 = 0 := by
  have hdisj := and_not_self_disjoint b c d hb
  have hu : b &&& c < 2 ^ 32 := Nat.and_lt_two_pow _ hc
  have hv : (b ^^^ 4294967295) &&& d < 2 ^ 32 := Nat.and_lt_two_pow _ hd
  have hor := add_eq_or_of_and_eq_zero 32 (b &&& c) ((b ^^^ 4294967295) &&& d) hu hv hdisj
  have hlt := Nat.or_lt_two_pow hu hv
  refine ⟨hdisj, hor, by omega, (assign_f2_parts b c d hb hc hd).2, ?_⟩
  exact (assign_f2_parts d b c hd hb hc).2

/-- Concrete instance of claim C9 at `b = 0x12345678`, `c = 0xF0F0F0F0`,
`d = 0xCAFEBABE`. -/
theorem claim9_witness :
    (0x12345678 : Nat) < 2 ^ 32 ∧
    ((0x12345678 &&& 0xF0F0F0F0 : Nat) &&& ((0x12345678 ^^^ 0xFFFFFFFF) &&& 0xCAFEBABE) = 0 ∧
      (0x12345678 &&& 0xF0F0F0F0 : Nat) + ((0x12345678 ^^^ 0xFFFFFFFF) &&& 0xCAFEBABE)
        = (0x12345678 &&& 0xF0F0F0F0 : Nat) ||| ((0x12345678 ^^^ 0xFFFFFFFF) &&& 0xCAFEBABE) ∧
      (0x12345678 &&& 0xF0F0F0F0 : Nat) + ((0x12345678 ^^^ 0xFFFFFFFF) &&& 0xCAFEBABE)
        ≤ 2 ^ 32 - 1 ∧
      (assign_f2_out 0x12345678 0xF0F0F0F0 0xCAFEBABE).2 = 0 ∧
      (assign_f4_out 0x12345678 0xF0F0F0F0 0xCAFEBABE).2 = 0) :=
  ⟨by decide, claim9_f2_carry_zero 0x12345678 0xF0F0F0F0 0xCAFEBABE
    (by decide) (by decide) (by decide)⟩

/-- Claim C3 (code bug): honest witnesses exist whose true carry exceeds
the gate's range check.  At `initial = left = right = 0xFFFFFFFF` the
combine assignment emits carry 2, but `sum_combine_ilr`'s
`range_check(carry, 0, 1)` rejects it; at
`a = f = x = 0xFFFFFFFF, k = 0x5A827999` the afxk assignment emits
carry 3, but `sum_afxk_gate`'s `range_check(carry, 0, 2)` rejects it. -/
theorem claim3_carry_range_check_bug :
    assign_sum_combine_ilr 0xFFFFFFFF 0xFFFFFFFF 0xFFFFFFFF = (0xFFFFFFFD, 2) ∧
    ¬ sum_combine_ilr_gate 0xFFFD 0xFFFF 2 0xFFFF 0xFFFF 0xFFFF 0xFFFF 0xFFFF 0xFFFF ∧
    assign_sum_afxk 0xFFFFFFFF 0xFFFFFFFF 0xFFFFFFFF 0x5A827999 = (0x5A827996, 3) ∧
    ¬ sum_afxk_gate 0x7996 0x5A82 3 0xFFFF 0xFFFF 0xFFFF 0xFFFF 0xFFFF 0xFFFF 0x7999 0x5A82 := by
  refine ⟨by decide, ?_, by decide, ?_⟩
  · intro h
    exact absurd h.1 (by decide)
  · intro h
    exact absurd h.1 (by decide)

/-- Claim C5 counterexample: both source-level index permutations of the
combination step are simple cyclic shifts (by 2 and by 3), refuting the
claim's assertion that the mapping is not a simple cyclic shift. -/
theorem claim5_counterexample :
    (List.range 5).map perm_l = (List.range 5).map (fun i => (i + 2) % 5) ∧
    (List.range 5).map perm_r = (List.range 5).map (fun i => (i + 3) % 5) := by
  decide

/-- Claim C5 (amended): for every initial state and pair of lane-final
states, output word `i` of the combination equals
`initial[(i+1) % 5] + left[perm_l i] + right[perm_r i] (mod 2^32)`, the
circuit's `assign_combine_ilr` computes the same words as the reference
`combine_left_right_states`, and the source-level permutations are the
cyclic shifts `perm_l i = (i+2) % 5`, `perm_r i = (i+3) % 5`. -/
theorem claim5_combine_amended (p l r : State) (i : Nat) (hi : i < 5) :
    state_get (combine_left_right_states p l r) i
      = (state_get p ((i + 1) % 5) + state_get l (perm_l i) + state_get r (perm_r i)) % 2 ^ 32 ∧
    state_get (assign_combine_ilr p l r) i
      = state_get (combine_left_right_states p l r) i ∧
    perm_l i = (i + 2) % 5 ∧ perm_r i = (i + 3) % 5 := by
  interval_cases i <;>
    refine ⟨?_, ?_, by decide, by decide⟩ <;>
    simp [state_get, perm_l, perm_r, combine_left_right_states, assign_combine_ilr,
      assign_sum_combine_ilr, sum_with_carry_three, lo16, hi16] <;>
    omega

/-- Concrete instance of claim C5 at a sample state triple and `i = 0`. -/
theorem claim5_witness :
    (0 : Nat) < 5 ∧
    state_get (combine_left_right_states ⟨1, 2, 3, 4, 5⟩ ⟨6, 7, 8, 9, 10⟩ ⟨11, 12, 13, 14, 15⟩) 0
      = (state_get (⟨1, 2, 3, 4, 5⟩ : State) ((0 + 1) % 5)
          + state_get (⟨6, 7, 8, 9, 10⟩ : State) (perm_l 0)
          + state_get (⟨11, 12, 13, 14, 15⟩ : State) (perm_r 0)) % 2 ^ 32 :=
  ⟨by decide,
   (claim5_combine_amended ⟨1, 2, 3, 4, 5⟩ ⟨6, 7, 8, 9, 10⟩ ⟨11, 12, 13, 14, 15⟩ 0 (by decide)).1⟩

theorem chunks_aux_spec (fuel : Nat) : ∀ l : List Nat,
    l.length ≤ 64 * fuel → l.length % 64 = 0 →
    (chunks_aux fuel l).flatten = l ∧ (∀ b ∈ chunks_aux fuel l, b.length = 64) ∧
    (l ≠ [] → chunks_aux fuel l ≠ []) := by
  induction fuel with
  | zero =>
    intro l h1 h2
    have hl : l = [] := List.eq_nil_of_length_eq_zero (by omega)
    subst hl
    simp [chunks_aux]
  | succ n ih =>
    intro l h1 h2
    rcases l with _ | ⟨a, t⟩
    · simp [chunks_aux]
    · have hlen : 64 ≤ (a :: t).length := by
        simp only [List.length_cons] at h2 ⊢
        omega
      have hstep : chunks_aux (n + 1) (a :: t)
          = (a :: t).take 64 :: chunks_aux n ((a :: t).drop 64) := by
        simp [chunks_aux]
      have hdlen : ((a :: t).drop 64).length = (a :: t).length - 64 := by
        rw [List.length_drop]
      have hih := ih ((a :: t).drop 64)
        (by rw [hdlen]; omega)
        (by rw [hdlen]; omega)
      have htake : ((a :: t).take 64).length = 64 := by
        rw [List.length_take]
        omega
      refine ⟨?_, ?_, ?_⟩
      · rw [hstep, List.flatten_cons, hih.1, List.take_append_drop]
      · intro b hb
        rw [hstep] at hb
        rcases List.mem_cons.mp hb with hb | hb
        · rw [hb]; exact htake
        · exact hih.2.1 b hb
      · intro _
        rw [hstep]
        simp

/-- Claim C7: for every input byte list, the padded blocks concatenate to
the input followed by a single `0x80` byte, then zero bytes, then the
8-byte little-endian bit length; the zero count is the minimum making the
length congruent to 56 mod 64; the total length is a positive multiple of
64; and at least one 64-byte block is produced. -/
theorem claim7_padding_correct (msg : List Nat) :
    pad_message_bytes msg ≠ [] ∧
    (∀ b ∈ pad_message_bytes msg, b.length = 64) ∧
    (pad_message_bytes msg).flatten
      = msg ++ 0x80 :: List.replicate (pad_zero_count msg.length) 0
        ++ u64_le_bytes ((msg.length <<< 3) % 2 ^ 64) ∧
    (msg.length + 1 + pad_zero_count msg.length) % 64 = 56 ∧
    pad_zero_count msg.length < 64 ∧
    0 < (pad_message_bytes msg).flatten.length ∧
    (pad_message_bytes msg).flatten.length % 64 = 0 := by
  have hz1 : (msg.length + 1 + pad_zero_count msg.length) % 64 = 56 := by
    unfold pad_zero_count
    dsimp only
    split_ifs <;> omega
  have hz2 : pad_zero_count msg.length < 64 := by
    unfold pad_zero_count
    dsimp only
    split_ifs <;> omega
  have hplen : (msg ++ 0x80 :: List.replicate (pad_zero_count msg.length) 0
      ++ u64_le_bytes ((msg.length <<< 3) % 2 ^ 64)).length
      = msg.length + 1 + pad_zero_count msg.length + 8 := by
    simp [u64_le_bytes]
    omega
  have hmod : (msg ++ 0x80 :: List.replicate (pad_zero_count msg.length) 0
      ++ u64_le_bytes ((msg.length <<< 3) % 2 ^ 64)).length % 64 = 0 := by
    rw [hplen]
    omega
  have hpad : pad_message_bytes msg
      = chunks_aux (msg ++ 0x80 :: List.replicate (pad_zero_count msg.length) 0
          ++ u64_le_bytes ((msg.length <<< 3) % 2 ^ 64)).length
        (msg ++ 0x80 :: List.replicate (pad_zero_count msg.length) 0
          ++ u64_le_bytes ((msg.length <<< 3) % 2 ^ 64)) := rfl
  have hspec := chunks_aux_spec
    (msg ++ 0x80 :: List.replicate (pad_zero_count msg.length) 0
      ++ u64_le_bytes ((msg.length <<< 3) % 2 ^ 64)).length
    (msg ++ 0x80 :: List.replicate (pad_zero_count msg.length) 0
      ++ u64_le_bytes ((msg.length <<< 3) % 2 ^ 64))
    (by omega) hmod
  have hne : (msg ++ 0x80 :: List.replicate (pad_zero_count msg.length) 0
      ++ u64_le_bytes ((msg.length <<< 3) % 2 ^ 64)) ≠ [] := by
    intro h
    have := congrArg List.length h
    rw [hplen] at this
    simp at this
  refine ⟨?_, ?_, ?_, hz1, hz2, ?_, ?_⟩
  · rw [hpad]
    exact hspec.2.2 hne
  · intro b hb
    rw [hpad] at hb
    exact hspec.2.1 b hb
  · rw [hpad, hspec.1]
  · rw [hpad, hspec.1, hplen]
    omega
  · rw [hpad, hspec.1, hplen]
    omega

/-- Claim C10: `rol` aborts on `amount >= 16`; for `1 <= amount <= 15` it
is total and returns the 32-bit left rotation
`((w << s) | (w >> (32-s)))` masked to 32 bits; and at `amount = 0`,
which the assertion permits, the `u32` shift `word >> 32` overflows, so
the precondition of well-definedness is strictly narrower than the
assertion `amount < 16`. -/
theorem claim10_rol_safety :
    (∀ w a : Nat, 16 ≤ a → rol_checked w a = none) ∧
    (∀ w a : Nat, w < 2 ^ 32 → 1 ≤ a → a ≤ 15 →
      rol_checked w a = some (((w <<< a) ||| (w >>> (32 - a))) % 2 ^ 32)) ∧
    (∀ w : Nat, rol_checked w 0 = none) := by
  refine ⟨?_, ?_, ?_⟩
  · intro w a h
    unfold rol_checked
    rw [if_pos h]
  · intro w a hw h1 h15
    unfold rol_checked
    rw [if_neg (by omega), if_neg (by omega), rol_mask w a hw]
  · intro w
    unfold rol_checked
    rw [if_neg (by omega), if_pos (by omega)]

/-- Concrete instances of claim C10 at `amount = 20`, `amount = 1` and
`amount = 0`. -/
theorem claim10_witness :
    (16 ≤ 20 ∧ rol_checked 7 20 = none) ∧
    ((0x80000001 : Nat) < 2 ^ 32 ∧
      rol_checked 0x80000001 1
        = some (((0x80000001 <<< 1) ||| (0x80000001 >>> (32 - 1))) % 2 ^ 32)) ∧
    rol_checked 7 0 = none :=
  ⟨⟨by decide, claim10_rol_safety.1 7 20 (by decide)⟩,
   ⟨by decide, claim10_rol_safety.2.1 0x80000001 1 (by decide) (by decide) (by decide)⟩,
   claim10_rol_safety.2.2 7⟩

/-! ## Claim C2: the rotation gates.

`CompressionGate::rotate_left_5_gate` .. `rotate_left_15_gate` each take a
chunk decomposition of a 32-bit word and constrain (i) the chunks to their
widths, (ii) the original word to be the chunks at their original
positions, and (iii) the rotated word to be the same chunks repositioned
cyclically.  The small-chunk range checks (`two_bit_range` etc.) and
`Gate::range_check` live in the missing `table16/gates.rs`; following its
documented behaviour they force `0 ≤ v ≤ hi`, written inline below. -/

/-- `rotate_left_5_gate`: `word = (a, b, c) = (5, 11, 16)` chunks with
`a = (a_hi, a_lo) = (3, 2)`. -/
def rotate_left_5_gate (a_lo a_hi b tag_b c word_lo word_hi rol_lo rol_hi : Nat) : Prop :=
  tag_b ≤ 3 ∧ a_lo < 2 ^ 2 ∧ a_hi < 2 ^ 3 ∧
  c + b * 2 ^ 16 + a_lo * 2 ^ 27 + a_hi * 2 ^ 29 = word_lo + word_hi * 2 ^ 16 ∧
  a_lo + a_hi * 2 ^ 2 + c * 2 ^ 5 + b * 2 ^ 21 = rol_lo + rol_hi * 2 ^ 16

/-- `rotate_left_6_gate`: `word = (a, b, c) = (6, 10, 16)` chunks with
`a = (a_hi, a_lo) = (3, 3)`. -/
def rotate_left_6_gate (a_lo a_hi b tag_b c word_lo word_hi rol_lo rol_hi : Nat) : Prop :=
  tag_b ≤ 2 ∧ a_lo < 2 ^ 3 ∧ a_hi < 2 ^ 3 ∧
  c + b * 2 ^ 16 + a_lo * 2 ^ 26 + a_hi * 2 ^ 29 = word_lo + word_hi * 2 ^ 16 ∧
  a_lo + a_hi * 2 ^ 3 + c * 2 ^ 6 + b * 2 ^ 22 = rol_lo + rol_hi * 2 ^ 16

/-- `rotate_left_7_gate`: `word = (a, b, c) = (7, 9, 16)` chunks with
`a = (a_hi, a_lo) = (4, 3)`. -/
def rotate_left_7_gate (a_lo a_hi b tag_b c word_lo word_hi rol_lo rol_hi : Nat) : Prop :=
  tag_b ≤ 1 ∧ a_lo < 2 ^ 3 ∧ a_hi < 2 ^ 4 ∧
  c + b * 2 ^ 16 + a_lo * 2 ^ 25 + a_hi * 2 ^ 28 = word_lo + word_hi * 2 ^ 16 ∧
  a_lo + a_hi * 2 ^ 3 + c * 2 ^ 7 + b * 2 ^ 23 = rol_lo + rol_hi * 2 ^ 16

/-- `rotate_left_8_gate`: `word = (a, b, c) = (8, 8, 16)` chunks with
`a = (a_hi, a_lo) = (4, 4)`. -/
def rotate_left_8_gate (a_lo a_hi b tag_b c word_lo word_hi rol_lo rol_hi : Nat) : Prop :=
  tag_b = 0 ∧ a_lo < 2 ^ 4 ∧ a_hi < 2 ^ 4 ∧
  c + b * 2 ^ 16 + a_lo * 2 ^ 24 + a_hi * 2 ^ 28 = word_lo + word_hi * 2 ^ 16 ∧
  a_lo + a_hi * 2 ^ 4 + c * 2 ^ 8 + b * 2 ^ 24 = rol_lo + rol_hi * 2 ^ 16

/-- `rotate_left_9_gate`: `word = (a, b, c) = (9, 7, 16)` chunks with
`b = (b_hi, b_lo) = (4, 3)`. -/
def rotate_left_9_gate (a tag_a b_lo b_hi c word_lo word_hi rol_lo rol_hi : Nat) : Prop :=
  tag_a ≤ 1 ∧ b_lo < 2 ^ 3 ∧ b_hi < 2 ^ 4 ∧
  c + b_lo * 2 ^ 16 + b_hi * 2 ^ 19 + a * 2 ^ 23 = word_lo + word_hi * 2 ^ 16 ∧
  a + c * 2 ^ 9 + b_lo * 2 ^ 25 + b_hi * 2 ^ 28 = rol_lo + rol_hi * 2 ^ 16

/-- `rotate_left_10_gate`: `word = (a, b, c) = (10, 6, 16)` chunks with
`b = (b_hi, b_lo) = (3, 3)`. -/
def rotate_left_10_gate (a tag_a b_lo b_hi c word_lo word_hi rol_lo rol_hi : Nat) : Prop :=
  tag_a ≤ 2 ∧ b_lo < 2 ^ 3 ∧ b_hi < 2 ^ 3 ∧
  c + b_lo * 2 ^ 16 + b_hi * 2 ^ 19 + a * 2 ^ 22 = word_lo + word_hi * 2 ^ 16 ∧
  a + c * 2 ^ 10 + b_lo * 2 ^ 26 + b_hi * 2 ^ 29 = rol_lo + rol_hi * 2 ^ 16

/-- `rotate_left_11_gate`: `word = (a, b, c) = (11, 5, 16)` chunks with
`b = (b_hi, b_lo) = (3, 2)`. -/
def rotate_left_11_gate (a tag_a b_lo b_hi c word_lo word_hi rol_lo rol_hi : Nat) : Prop :=
  tag_a ≤ 3 ∧ b_lo < 2 ^ 2 ∧ b_hi < 2 ^ 3 ∧
  c + b_lo * 2 ^ 16 + b_hi * 2 ^ 18 + a * 2 ^ 21 = word_lo + word_hi * 2 ^ 16 ∧
  a + c * 2 ^ 11 + b_lo * 2 ^ 27 + b_hi * 2 ^ 29 = rol_lo + rol_hi * 2 ^ 16

/-- `rotate_left_12_gate`: `word = (a, b, c) = (12, 4, 16)` chunks with
`b = (b_hi, b_lo) = (2, 2)`. -/
def rotate_left_12_gate (a tag_a b_lo b_hi c word_lo word_hi rol_lo rol_hi : Nat) : Prop :=
  tag_a ≤ 4 ∧ b_lo < 2 ^ 2 ∧ b_hi < 2 ^ 2 ∧
  c + b_lo * 2 ^ 16 + b_hi * 2 ^ 18 + a * 2 ^ 20 = word_lo + word_hi * 2 ^ 16 ∧
  a + c * 2 ^ 12 + b_lo * 2 ^ 28 + b_hi * 2 ^ 30 = rol_lo + rol_hi * 2 ^ 16

/-- `rotate_left_13_gate`: `word = (a, b, c) = (13, 3, 16)` chunks. -/
def rotate_left_13_gate (a tag_a b c word_lo word_hi rol_lo rol_hi : Nat) : Prop :=
  tag_a ≤ 5 ∧ b < 2 ^ 3 ∧
  c + b * 2 ^ 16 + a * 2 ^ 19 = word_lo + word_hi * 2 ^ 16 ∧
  a + c * 2 ^ 13 + b * 2 ^ 29 = rol_lo + rol_hi * 2 ^ 16

/-- `rotate_left_14_gate`: `word = (a, b, c) = (14, 2, 16)` chunks. -/
def rotate_left_14_gate (a tag_a b c word_lo word_hi rol_lo rol_hi : Nat) : Prop :=
  tag_a ≤ 6 ∧ b < 2 ^ 2 ∧
  c + b * 2 ^ 16 + a * 2 ^ 18 = word_lo + word_hi * 2 ^ 16 ∧
  a + c * 2 ^ 14 + b * 2 ^ 30 = rol_lo + rol_hi * 2 ^ 16

/-- `rotate_left_15_gate`: `word = (a, b, c) = (15, 1, 16)` chunks. -/
def rotate_left_15_gate (a tag_a b c word_lo word_hi rol_lo rol_hi : Nat) : Prop :=
  tag_a ≤ 7 ∧ b ≤ 1 ∧
  c + b * 2 ^ 16 + a * 2 ^ 17 = word_lo + word_hi * 2 ^ 16 ∧
  a + c * 2 ^ 15 + b * 2 ^ 31 = rol_lo + rol_hi * 2 ^ 16

/-- The witness `CompressionConfig::assign_rotate_left` places for a word
`w` at shift `shift`, substituted into the matching gate: `c` is the low
half, the slices of the high half follow the little-endian bit ranges
taken in each branch, the tag cell is the lookup tag of the
spread-decomposed chunk, and the output cells are the halves of
`rol w shift`.  Shifts outside `5..=15` hit the `assert!` and assign no
witness. -/
def rotate_left_witness_ok (w shift : Nat) : Prop :=
  if shift = 5 then
    rotate_left_5_gate (hi16 w / 2 ^ 11 % 2 ^ 2) (hi16 w / 2 ^ 13) (hi16 w % 2 ^ 11)
      (get_tag (hi16 w % 2 ^ 11)) (lo16 w) (lo16 w) (hi16 w) (lo16 (rol w 5)) (hi16 (rol w 5))
  else if shift = 6 then
    rotate_left_6_gate (hi16 w / 2 ^ 10 % 2 ^ 3) (hi16 w / 2 ^ 13) (hi16 w % 2 ^ 10)
      (get_tag (hi16 w % 2 ^ 10)) (lo16 w) (lo16 w) (hi16 w) (lo16 (rol w 6)) (hi16 (rol w 6))
  else if shift = 7 then
    rotate_left_7_gate (hi16 w / 2 ^ 9 % 2 ^ 3) (hi16 w / 2 ^ 12) (hi16 w % 2 ^ 9)
      (get_tag (hi16 w % 2 ^ 9)) (lo16 w) (lo16 w) (hi16 w) (lo16 (rol w 7)) (hi16 (rol w 7))
  else if shift = 8 then
    rotate_left_8_gate (hi16 w / 2 ^ 8 % 2 ^ 4) (hi16 w / 2 ^ 12) (hi16 w % 2 ^ 8)
      (get_tag (hi16 w % 2 ^ 8)) (lo16 w) (lo16 w) (hi16 w) (lo16 (rol w 8)) (hi16 (rol w 8))
  else if shift = 9 then
    rotate_left_9_gate (hi16 w / 2 ^ 7) (get_tag (hi16 w / 2 ^ 7)) (hi16 w % 2 ^ 3)
      (hi16 w / 2 ^ 3 % 2 ^ 4) (lo16 w) (lo16 w) (hi16 w) (lo16 (rol w 9)) (hi16 (rol w 9))
  else if shift = 10 then
    rotate_left_10_gate (hi16 w / 2 ^ 6) (get_tag (hi16 w / 2 ^ 6)) (hi16 w % 2 ^ 3)
      (hi16 w / 2 ^ 3 % 2 ^ 3) (lo16 w) (lo16 w) (hi16 w) (lo16 (rol w 10)) (hi16 (rol w 10))
  else if shift = 11 then
    rotate_left_11_gate (hi16 w / 2 ^ 5) (get_tag (hi16 w / 2 ^ 5)) (hi16 w % 2 ^ 2)
      (hi16 w / 2 ^ 2 % 2 ^ 3) (lo16 w) (lo16 w) (hi16 w) (lo16 (rol w 11)) (hi16 (rol w 11))
  else if shift = 12 then
    rotate_left_12_gate (hi16 w / 2 ^ 4) (get_tag (hi16 w / 2 ^ 4)) (hi16 w % 2 ^ 2)
      (hi16 w / 2 ^ 2 % 2 ^ 2) (lo16 w) (lo16 w) (hi16 w) (lo16 (rol w 12)) (hi16 (rol w 12))
  else if shift = 13 then
    rotate_left_13_gate (hi16 w / 2 ^ 3) (get_tag (hi16 w / 2 ^ 3)) (hi16 w % 2 ^ 3)
      (lo16 w) (lo16 w) (hi16 w) (lo16 (rol w 13)) (hi16 (rol w 13))
  else if shift = 14 then
    rotate_left_14_gate (hi16 w / 2 ^ 2) (get_tag (hi16 w / 2 ^ 2)) (hi16 w % 2 ^ 2)
      (lo16 w) (lo16 w) (hi16 w) (lo16 (rol w 14)) (hi16 (rol w 14))
  else if shift = 15 then
    rotate_left_15_gate (hi16 w / 2 ^ 1) (get_tag (hi16 w / 2 ^ 1)) (hi16 w % 2 ^ 1)
      (lo16 w) (lo16 w) (hi16 w) (lo16 (rol w 15)) (hi16 (rol w 15))
  else False

theorem rol_lt (w s : Nat) (hw : w < 2 ^ 32) : rol w s < 2 ^ 32 := by
  rw [rol]
  have h1 : (w <<< s) % 2 ^ 32 < 2 ^ 32 := Nat.mod_lt _ (by norm_num)
  have h2 : w >>> (32 - s) < 2 ^ 32 := by
    rw [Nat.shiftRight_eq_div_pow]
    exact lt_of_le_of_lt (Nat.div_le_self _ _) hw
  exact Nat.or_lt_two_pow h1 h2

theorem lo_hi_recompose (x : Nat) (hx : x < 2 ^ 32) :
    lo16 x + hi16 x * 2 ^ 16 = x := by
  simp only [lo16, hi16]
  omega

set_option maxHeartbeats 6400000 in
/-- Claim C2: for every 32-bit word `w` and every shift in `5..=15`, the
witness produced by `assign_rotate_left` satisfies the matching
`rotate_left_<shift>_gate` — both the word-reconstruction equation and the
cyclic-repositioning equation — and the rotated output equals
`((w << shift) | (w >> (32 - shift)))` masked to 32 bits. -/
theorem claim2_rotation_gates (w s : Nat) (hw : w < 2 ^ 32) (hs1 : 5 ≤ s) (hs2 : s ≤ 15) :
    rotate_left_witness_ok w s ∧ rol w s = ((w <<< s) ||| (w >>> (32 - s))) % 2 ^ 32 := by
  refine ⟨?_, rol_mask w s hw⟩
  have hrol := rol_eq w s hw (by omega) (by omega)
  have hRlt := rol_lt w s hw
  interval_cases s <;>
  · norm_num at hrol
    have hre := lo_hi_recompose _ hRlt
    have hwe := lo_hi_recompose _ hw
    simp only [rotate_left_witness_ok, rotate_left_5_gate, rotate_left_6_gate,
      rotate_left_7_gate, rotate_left_8_gate, rotate_left_9_gate, rotate_left_10_gate,
      rotate_left_11_gate, rotate_left_12_gate, rotate_left_13_gate, rotate_left_14_gate,
      rotate_left_15_gate, reduceIte]
    rw [hwe, hre, hrol]
    clear hwe hre hrol hRlt
    simp only [lo16, hi16]
    first
    | refine ⟨?_, by omega, by omega, by omega, by omega⟩
    | refine ⟨?_, by omega, by omega, by omega⟩
    unfold get_tag
    split_ifs <;> omega

/-- A concrete instance of claim C2 at `w = 0x9E3779B9`, `s = 7`. -/
theorem claim2_witness :
    (0x9E3779B9 : Nat) < 2 ^ 32 ∧
    (rotate_left_witness_ok 0x9E3779B9 7 ∧
      rol 0x9E3779B9 7 = ((0x9E3779B9 <<< 7) ||| (0x9E3779B9 >>> (32 - 7))) % 2 ^ 32) :=
  ⟨by decide, claim2_rotation_gates 0x9E3779B9 7 (by decide) (by decide) (by decide)⟩

/-! ## Claim C4: one compression round of the circuit vs the reference.

`CompressionConfig::assign_round` (`subregion_main.rs`) selects a round
function by `phase_idx = 1 + round_idx / 16` and the lane, then chains
`assign_sum_afxk`, `assign_rotate_left` and `assign_sum_re`, and returns
the state `(E, T, B, rol(C, 10), D)`.  Below, the word values the routine
assigns are traced through those calls. -/

/-- `RoundSide` from `compression.rs`. -/
inductive RoundSide
  | Left
  | Right
deriving DecidableEq

/-- The round-function selection if-chain at the top of `assign_round`,
returning the `(lo, hi)` output cells of the selected `assign_f*`. -/
def assign_f_out (round_idx : Nat) (side : RoundSide) (b c d : Nat) : Nat × Nat :=
  let phase_idx := 1 + round_idx / 16
  if (phase_idx = 1 ∧ side = RoundSide.Left) ∨ (phase_idx = 5 ∧ side = RoundSide.Right) then
    assign_f1_out b c d
  else if (phase_idx = 2 ∧ side = RoundSide.Left) ∨ (phase_idx = 4 ∧ side = RoundSide.Right) then
    (assign_f2_out b c d).1
  else if phase_idx = 3 then
    assign_f3_out b c d
  else if (phase_idx = 4 ∧ side = RoundSide.Left) ∨ (phase_idx = 2 ∧ side = RoundSide.Right) then
    (assign_f4_out b c d).1
  else
    assign_f5_out b c d

/-- The `if round_side == Left { MSG_SEL_IDX_LEFT } else { MSG_SEL_IDX_RIGHT }`
selection in `assign_round`. -/
def msg_sel : RoundSide → List Nat
  | RoundSide.Left => MSG_SEL_IDX_LEFT
  | RoundSide.Right => MSG_SEL_IDX_RIGHT

/-- The lane selection of the round-constant table in `assign_round`. -/
def k_tbl : RoundSide → List Nat
  | RoundSide.Left => ROUND_CONSTANTS_LEFT
  | RoundSide.Right => ROUND_CONSTANTS_RIGHT

/-- The lane selection of the rotation-amount table in `assign_round`. -/
def shift_tbl : RoundSide → List Nat
  | RoundSide.Left => ROL_AMOUNT_LEFT
  | RoundSide.Right => ROL_AMOUNT_RIGHT

/-- The word values of one circuit round, `assign_round`: the message
word and round constant are selected by lane and phase, the four-operand
sum feeds `assign_rotate_left`, `T` is the two-operand sum of the rotated
word and `E`, and the next state is `(E, T, B, rol(C, 10), D)`. -/
def assign_round (round_idx : Nat) (s : State) (msg : List Nat) (side : RoundSide) : State :=
  let phase_idx := 1 + round_idx / 16
  let fout := assign_f_out round_idx side s.b s.c s.d
  let x := msg.getD ((msg_sel side).getD round_idx 0) 0
  let k := (k_tbl side).getD (phase_idx - 1) 0
  let sum := (assign_sum_afxk s.a (word_val fout) x k).1
  let rol_shift := (shift_tbl side).getD round_idx 0
  let rolv := rol sum rol_shift
  let t := (assign_sum_re rolv s.e).1
  ⟨s.e, t, s.b, rol s.c 10, s.d⟩

theorem assign_sum_afxk_val (a f x k : Nat) :
    (assign_sum_afxk a f x k).1 = (a + f + x + k) % 2 ^ 32 := by
  simp only [assign_sum_afxk, sum_with_carry_four, lo16, hi16]
  omega

theorem assign_sum_re_val (r e : Nat) :
    (assign_sum_re r e).1 = (r + e) % 2 ^ 32 := by
  simp only [assign_sum_re, sum_with_carry_two, lo16, hi16]
  omega

theorem assign_f_out_left_val (j b c d : Nat) (hj : j < 80)
    (hb : b < 2 ^ 32) (hc : c < 2 ^ 32) (hd : d < 2 ^ 32) :
    word_val (assign_f_out j RoundSide.Left b c d) = round_func_left (j / 16) b c d := by
  have hp : j / 16 = 0 ∨ j / 16 = 1 ∨ j / 16 = 2 ∨ j / 16 = 3 ∨ j / 16 = 4 := by omega
  unfold assign_f_out
  rcases hp with hp | hp | hp | hp | hp
  · rw [hp]; norm_num; exact assign_f1_val b c d hb hc hd
  · rw [hp]; norm_num; exact (assign_f2_parts b c d hb hc hd).1
  · rw [hp]; norm_num; exact assign_f3_val b c d hb hc hd
  · rw [hp]; norm_num; exact assign_f4_val b c d hb hc hd
  · rw [hp]; norm_num; exact assign_f5_val b c d hb hc hd

theorem assign_f_out_right_val (j b c d : Nat) (hj : j < 80)
    (hb : b < 2 ^ 32) (hc : c < 2 ^ 32) (hd : d < 2 ^ 32) :
    word_val (assign_f_out j RoundSide.Right b c d) = round_func_right (j / 16) b c d := by
  have hp : j / 16 = 0 ∨ j / 16 = 1 ∨ j / 16 = 2 ∨ j / 16 = 3 ∨ j / 16 = 4 := by omega
  unfold assign_f_out
  rcases hp with hp | hp | hp | hp | hp
  · rw [hp]; norm_num; exact assign_f5_val b c d hb hc hd
  · rw [hp]; norm_num; exact assign_f4_val b c d hb hc hd
  · rw [hp]; norm_num; exact assign_f3_val b c d hb hc hd
  · rw [hp]; norm_num; exact (assign_f2_parts b c d hb hc hd).1
  · rw [hp]; norm_num; exact assign_f1_val b c d hb hc hd

/-- Claim C4: for every round index `j < 80`, state and message block,
the circuit's `assign_round` computes the same transition as the
reference `left_step` / `right_step` on both lanes, and that transition
is `A' = E, B' = T, C' = B, D' = rol(C, 10), E' = D` with
`T = rol(A + f(B,C,D) + X[sel[j]] + K[j/16], shift[j]) + E (mod 2^32)`,
all tables selected by phase and lane. -/
theorem claim4_round_equals_native (j : Nat) (s : State) (msg : List Nat)
    (hj : j < 80) (hb : s.b < 2 ^ 32) (hc : s.c < 2 ^ 32) (hd : s.d < 2 ^ 32) :
    assign_round j s msg RoundSide.Left = left_step j s msg ∧
    assign_round j s msg RoundSide.Right = right_step j s msg ∧
    left_step j s msg = ⟨s.e,
      (rol ((((s.a + round_func_left (j / 16) s.b s.c s.d) % 2 ^ 32
            + msg.getD (MSG_SEL_IDX_LEFT.getD j 0) 0) % 2 ^ 32
            + ROUND_CONSTANTS_LEFT.getD (j / 16) 0) % 2 ^ 32)
          (ROL_AMOUNT_LEFT.getD j 0) + s.e) % 2 ^ 32,
      s.b, rol s.c 10, s.d⟩ ∧
    right_step j s msg = ⟨s.e,
      (rol ((((s.a + round_func_right (j / 16) s.b s.c s.d) % 2 ^ 32
            + msg.getD (MSG_SEL_IDX_RIGHT.getD j 0) 0) % 2 ^ 32
            + ROUND_CONSTANTS_RIGHT.getD (j / 16) 0) % 2 ^ 32)
          (ROL_AMOUNT_RIGHT.getD j 0) + s.e) % 2 ^ 32,
      s.b, rol s.c 10, s.d⟩ := by
  refine ⟨?_, ?_, rfl, rfl⟩
  · have hf := assign_f_out_left_val j s.b s.c s.d hj hb hc hd
    simp only [assign_round, left_step, msg_sel, k_tbl, shift_tbl, Nat.add_sub_cancel_left]
    congr 1
    rw [assign_sum_re_val, assign_sum_afxk_val, hf]
    exact congrArg (fun z => (rol z (ROL_AMOUNT_LEFT.getD j 0) + s.e) % 2 ^ 32) (by omega)
  · have hf := assign_f_out_right_val j s.b s.c s.d hj hb hc hd
    simp only [assign_round, right_step, msg_sel, k_tbl, shift_tbl, Nat.add_sub_cancel_left]
    congr 1
    rw [assign_sum_re_val, assign_sum_afxk_val, hf]
    exact congrArg (fun z => (rol z (ROL_AMOUNT_RIGHT.getD j 0) + s.e) % 2 ^ 32) (by omega)

/-- A concrete instance of claim C4 at round 0 from the initial state
with an empty message block. -/
theorem claim4_witness :
    ((0 : Nat) < 80 ∧ (0xEFCDAB89 : Nat) < 2 ^ 32 ∧ (0x98BADCFE : Nat) < 2 ^ 32
      ∧ (0x10325476 : Nat) < 2 ^ 32) ∧
    (assign_round 0 ⟨0x67452301, 0xEFCDAB89, 0x98BADCFE, 0x10325476, 0xC3D2E1F0⟩ []
        RoundSide.Left
      = left_step 0 ⟨0x67452301, 0xEFCDAB89, 0x98BADCFE, 0x10325476, 0xC3D2E1F0⟩ []) :=
  ⟨⟨by decide, by decide, by decide, by decide⟩,
   (claim4_round_equals_native 0
     ⟨0x67452301, 0xEFCDAB89, 0x98BADCFE, 0x10325476, 0xC3D2E1F0⟩ []
     (by decide) (by decide) (by decide) (by decide)).1⟩

/-! ## Claim C6: the "abc" test vector. -/

/-- Hexadecimal digit sequence of a byte list, high nibble first. -/
def hex_nibbles (bytes : List Nat) : List Nat :=
  (bytes.map (fun b => [b / 16, b % 16])).flatten

/-- The digit sequence of the digest value claimed by the specification
for `"abc"`: `8eb208f7e05d987a9b044a8e98c6b087f15a0bfc1` (41 digits). -/
def claimed_abc_hex : List Nat :=
  [0x8, 0xe, 0xb, 0x2, 0x0, 0x8, 0xf, 0x7, 0xe, 0x0, 0x5, 0xd, 0x9, 0x8, 0x7, 0xa,
   0x9, 0xb, 0x0, 0x4, 0x4, 0xa, 0x8, 0xe, 0x9, 0x8, 0xc, 0x6, 0xb, 0x0, 0x8, 0x7,
   0xf, 0x1, 0x5, 0xa, 0x0, 0xb, 0xf, 0xc, 0x1]

set_option maxRecDepth 1000000 in
set_option maxHeartbeats 4000000 in
/-- Claim C6 counterexample: the hexadecimal form of `hash "abc"` is not
the spec's 41-digit string — a 20-byte digest has exactly 40 hex digits. -/
theorem claim6_counterexample :
    hex_nibbles (hash [97, 98, 99]) ≠ claimed_abc_hex ∧
    (hex_nibbles (hash [97, 98, 99])).length = 40 ∧
    claimed_abc_hex.length = 41 := by
  decide

set_option maxRecDepth 1000000 in
set_option maxHeartbeats 4000000 in
/-- Claim C6 (amended): the reference hash of the ASCII bytes of `"abc"`
is the 20-byte digest whose hexadecimal form is
`8eb208f7e05d987a9b044a8e98c6b087f15a0bfc` (40 hex digits, matching the
source test fixture). -/
theorem claim6_hash_abc :
    hash [97, 98, 99] = [0x8e, 0xb2, 0x08, 0xf7, 0xe0, 0x5d, 0x98, 0x7a, 0x9b, 0x04,
      0x4a, 0x8e, 0x98, 0xc6, 0xb0, 0x87, 0xf1, 0x5a, 0x0b, 0xfc] := by
  decide

/-! ## Claim C8: the spread table generator. -/

theorem spread_bits_succ_top (w : Nat) : ∀ i, spread_bits (w + 1) i
    = spread_bits w i + i / 2 ^ w % 2 * 4 ^ w := by
  induction w with
  | zero =>
    intro i
    show i % 2 + 4 * spread_bits 0 (i / 2) = spread_bits 0 i + i / 2 ^ 0 % 2 * 4 ^ 0
    simp [spread_bits]
  | succ w ih =>
    intro i
    show i % 2 + 4 * spread_bits (w + 1) (i / 2)
        = (i % 2 + 4 * spread_bits w (i / 2)) + i / 2 ^ (w + 1) % 2 * 4 ^ (w + 1)
    rw [ih (i / 2), div_two_pow_succ w i]
    have h4 : (4 : Nat) ^ (w + 1) = 4 * 4 ^ w := by rw [pow_succ]; ring
    rw [h4]
    ring

theorem recompute_spread_eq (i : Nat) : recompute_spread i = spread_bits 16 i := by
  suffices h : ∀ w, (List.range w).foldl
      (fun acc b => if (i >>> b) &&& 1 ≠ 0 then acc + (1 <<< (2 * b)) else acc) 0
      = spread_bits w i from h 16
  intro w
  induction w with
  | zero => simp [spread_bits]
  | succ w ih =>
    rw [List.range_succ, List.foldl_append, ih]
    show (if (i >>> w) &&& 1 ≠ 0 then spread_bits w i + 1 <<< (2 * w) else spread_bits w i)
        = spread_bits (w + 1) i
    have hbit : (i >>> w) &&& 1 = i / 2 ^ w % 2 := by
      rw [Nat.shiftRight_eq_div_pow, Nat.and_one_is_mod]
    have hshift : (1 : Nat) <<< (2 * w) = 4 ^ w := by
      rw [Nat.shiftLeft_eq, Nat.one_mul, show (4 : Nat) = 2 ^ 2 from rfl, ← pow_mul]
    rw [hbit, hshift, spread_bits_succ_top]
    by_cases h : i / 2 ^ w % 2 = 0
    · rw [if_neg (fun hc => hc h), h]
      ring
    · have h1 : i / 2 ^ w % 2 = 1 := by omega
      rw [if_pos h, h1]
      ring

set_option maxHeartbeats 1600000 in
theorem generate_step_row (m : Nat) :
    generate_step (get_tag m, m, spread_bits 16 m) (m + 1)
      = (get_tag (m + 1), m + 1, spread_bits 16 (m + 1)) := by
  unfold generate_step
  dsimp only
  refine Prod.ext ?_ (Prod.ext rfl ?_)
  · show (if m + 1 = 2 ^ 8 ∨ m + 1 = 2 ^ 9 ∨ m + 1 = 2 ^ 10 ∨ m + 1 = 2 ^ 11 ∨ m + 1 = 2 ^ 12
        ∨ m + 1 = 2 ^ 13 ∨ m + 1 = 2 ^ 14 ∨ m + 1 = 2 ^ 15 then get_tag m + 1 else get_tag m)
        = get_tag (m + 1)
    by_cases h : m + 1 = 2 ^ 8 ∨ m + 1 = 2 ^ 9 ∨ m + 1 = 2 ^ 10 ∨ m + 1 = 2 ^ 11
        ∨ m + 1 = 2 ^ 12 ∨ m + 1 = 2 ^ 13 ∨ m + 1 = 2 ^ 14 ∨ m + 1 = 2 ^ 15
    · rw [if_pos h]
      rcases h with h | h | h | h | h | h | h | h <;>
        (have hm : m = 2 ^ 8 - 1 ∨ m = 2 ^ 9 - 1 ∨ m = 2 ^ 10 - 1 ∨ m = 2 ^ 11 - 1
            ∨ m = 2 ^ 12 - 1 ∨ m = 2 ^ 13 - 1 ∨ m = 2 ^ 14 - 1 ∨ m = 2 ^ 15 - 1 := by omega) <;>
        rcases hm with hm | hm | hm | hm | hm | hm | hm | hm <;>
        subst hm <;> decide
    · rw [if_neg h]
      unfold get_tag
      split_ifs <;> omega
  · show (if (m + 1) % 2 = 0 then recompute_spread (m + 1) else spread_bits 16 m + 1)
        = spread_bits 16 (m + 1)
    by_cases h : (m + 1) % 2 = 0
    · rw [if_pos h, recompute_spread_eq]
    · rw [if_neg h]
      have e1 : spread_bits 16 (m + 1) = (m + 1) % 2 + 4 * spread_bits 15 ((m + 1) / 2) := rfl
      have e2 : spread_bits 16 m = m % 2 + 4 * spread_bits 15 (m / 2) := rfl
      have e3 : (m + 1) / 2 = m / 2 := by omega
      rw [e1, e2, e3]
      omega

theorem generate_aux_rows (k : Nat) : ∀ m : Nat,
    generate_aux k (m + 1) (get_tag m, m, spread_bits 16 m)
      = (List.range' m k).map (fun j => (get_tag j, j, spread_bits 16 j)) := by
  induction k with
  | zero => intro m; rfl
  | succ k ih =>
    intro m
    show (get_tag m, m, spread_bits 16 m)
        :: generate_aux k (m + 1 + 1) (generate_step (get_tag m, m, spread_bits 16 m) (m + 1))
      = (List.range' m (k + 1)).map (fun j => (get_tag j, j, spread_bits 16 j))
    rw [generate_step_row, ih (m + 1), List.range'_succ]
    rfl

/-- Claim C8: `SpreadTableConfig::generate` yields exactly `2^16`
`(tag, dense, spread)` rows; row `i` is `(get_tag i, i, spread i)`; the
rows are strictly increasing in the dense value; and regeneration is
deterministic. -/
theorem claim8_spread_table_generate :
    generate.length = 2 ^ 16 ∧
    generate = (List.range (2 ^ 16)).map (fun i => (get_tag i, i, spread_bits 16 i)) ∧
    List.Pairwise (fun p q : Nat × Nat × Nat => p.2.1 < q.2.1) generate ∧
    generate = generate := by
  have hmain : generate = (List.range (2 ^ 16)).map (fun i => (get_tag i, i, spread_bits 16 i)) := by
    have h0 : ((0, 0, 0) : Nat × Nat × Nat) = (get_tag 0, 0, spread_bits 16 0) := by decide
    show generate_aux (2 ^ 16) 1 (0, 0, 0) = _
    rw [h0, List.range_eq_range']
    exact generate_aux_rows (2 ^ 16) 0
  refine ⟨?_, hmain, ?_, rfl⟩
  · rw [hmain]
    simp
  · rw [hmain]
    exact List.Pairwise.map _ (fun a b hab => by simpa using hab)
      (List.pairwise_lt_range _)

end Ripemd
